import Mathlib

/-!
Shallow embedding of the atom-distribution subsystem of
`src/gromacs/domdec/distribute.cpp` (GROMACS domain decomposition).

Real-valued quantities (`real`, `rvec`) are modelled over `ℚ` so that the
arithmetic of the source is exact and executable.  Machine integers are
modelled as `ℕ`/`ℤ`.  The external message-passing layer (MPI) is modelled by
its data effect: a broadcast makes every rank hold the master's bytes, a
scatter hands rank `r` the segment `[displacement r, displacement r + count r)`
of the master's buffer, and a point-to-point send/receive delivers the packed
buffer unchanged.
-/

namespace GmxDistribute

/-- An `rvec`: one particle position (components `x = XX`, `y = YY`, `z = ZZ`). -/
structure V3 where
  x : ℚ
  y : ℚ
  z : ℚ
deriving DecidableEq, Repr, Inhabited

/-- A 3×3 `matrix` (box or virial tensor); row `d` is the box vector of axis `d`.
GROMACS boxes are lower triangular: row `d` has zero components above `d`. -/
structure Mat3 where
  r0 : V3
  r1 : V3
  r2 : V3
deriving DecidableEq, Repr, Inhabited

/-- Row `d` of a matrix, `box[d]`. -/
def mrow (m : Mat3) (d : ℕ) : V3 :=
  if d = 0 then m.r0 else if d = 1 then m.r1 else m.r2

/-- Component `d` of a vector, `v[d]`. -/
def vget (v : V3) (d : ℕ) : ℚ :=
  if d = 0 then v.x else if d = 1 then v.y else v.z

/-- `rvec_inc`: componentwise addition. -/
def vadd (a b : V3) : V3 := ⟨a.x + b.x, a.y + b.y, a.z + b.z⟩

/-- `rvec_dec`: componentwise subtraction. -/
def vsub (a b : V3) : V3 := ⟨a.x - b.x, a.y - b.y, a.z - b.z⟩

/-- Scalar multiple of a vector. -/
def vsmul (q : ℚ) (a : V3) : V3 := ⟨q * a.x, q * a.y, q * a.z⟩

/-- Sum of a list of vectors (the accumulation loop building `cg_cm`). -/
def vsum (l : List V3) : V3 := l.foldl vadd ⟨0, 0, 0⟩

/-- The per-axis grid/geometry data read by `getAtomGroupDistribution`:
grid dimensions `dd->nc`, number of periodic dimensions `dd->npbcdim`,
screw flag `dd->bScrewPBC`, triclinic flags `ddbox.tric_dir` and the
per-axis cell boundaries produced by `set_dd_cell_sizes_slb` (external
collaborator, passed in as data). -/
structure DDConfig where
  nc : ℕ → ℕ
  npbcdim : ℕ
  bScrewPBC : Bool
  tricDir : ℕ → Bool
  bounds : ℕ → ℕ → ℚ

/-- `dd->nnodes`: one domain per grid cell. -/
def nnodes (cfg : DDConfig) : ℕ := cfg.nc 0 * cfg.nc 1 * cfg.nc 2

/-- The state mutated by one axis-wrapping loop iteration: the group's
reference position `cg_cm` and the member positions `pos[k0..k1)`. -/
structure GroupState where
  cgcm : V3
  members : List V3
deriving DecidableEq, Repr, Inhabited

/-- The screw-boundary reflection applied on each wrap when `bScrew`:
`v[YY] = box[YY][YY] - v[YY]; v[ZZ] = box[ZZ][ZZ] - v[ZZ]`. -/
def screwFlip (box : Mat3) (v : V3) : V3 :=
  ⟨v.x, vget (mrow box 1) 1 - v.y, vget (mrow box 2) 2 - v.z⟩

/-- Body of one downward wrap (`pos_d >= box[d][d]` case, lines 351-369):
subtract `box[d]` from `cg_cm` and every member, then reflect if screw. -/
def wrapStepDown (box : Mat3) (d : ℕ) (bScrew : Bool) (st : GroupState) : GroupState :=
  let cg := vsub st.cgcm (mrow box d)
  ⟨if bScrew then screwFlip box cg else cg,
   st.members.map fun p =>
     let p1 := vsub p (mrow box d)
     if bScrew then screwFlip box p1 else p1⟩

/-- Body of one upward wrap (`pos_d < 0` case, lines 370-388). -/
def wrapStepUp (box : Mat3) (d : ℕ) (bScrew : Bool) (st : GroupState) : GroupState :=
  let cg := vadd st.cgcm (mrow box d)
  ⟨if bScrew then screwFlip box cg else cg,
   st.members.map fun p =>
     let p1 := vadd p (mrow box d)
     if bScrew then screwFlip box p1 else p1⟩

/-- `while (pos_d >= box[d][d]) { pos_d -= box[d][d]; ... }`.
The conjunct `0 < box[d][d]` guards termination: for a non-positive box
diagonal the C loop would not terminate, so the model makes it a no-op;
all theorems assume a positive box diagonal. -/
def wrapDown (box : Mat3) (d : ℕ) (bScrew : Bool) (posd : ℚ) (st : GroupState) :
    ℚ × GroupState :=
  if h : 0 < vget (mrow box d) d ∧ vget (mrow box d) d ≤ posd then
    wrapDown box d bScrew (posd - vget (mrow box d) d) (wrapStepDown box d bScrew st)
  else
    (posd, st)
termination_by (Int.floor (posd / vget (mrow box d) d)).toNat
decreasing_by
  obtain ⟨hb, hle⟩ := h
  have hbne : vget (mrow box d) d ≠ 0 := ne_of_gt hb
  have hstep : (posd - vget (mrow box d) d) / vget (mrow box d) d
      = posd / vget (mrow box d) d - 1 := by
    field_simp
  rw [hstep, Int.floor_sub_one]
  have hone : (1 : ℚ) ≤ posd / vget (mrow box d) d :=
    (one_le_div hb).mpr hle
  have hfl : (1 : ℤ) ≤ Int.floor (posd / vget (mrow box d) d) :=
    Int.le_floor.mpr (by exact_mod_cast hone)
  omega

/-- `while (pos_d < 0) { pos_d += box[d][d]; ... }`. -/
def wrapUp (box : Mat3) (d : ℕ) (bScrew : Bool) (posd : ℚ) (st : GroupState) :
    ℚ × GroupState :=
  if h : 0 < vget (mrow box d) d ∧ posd < 0 then
    wrapUp box d bScrew (posd + vget (mrow box d) d) (wrapStepUp box d bScrew st)
  else
    (posd, st)
termination_by (Int.ceil (-posd / vget (mrow box d) d)).toNat
decreasing_by
  obtain ⟨hb, hneg⟩ := h
  have hbne : vget (mrow box d) d ≠ 0 := ne_of_gt hb
  have hstep : -(posd + vget (mrow box d) d) / vget (mrow box d) d
      = -posd / vget (mrow box d) d - 1 := by
    field_simp
    ring
  rw [hstep, Int.ceil_sub_one]
  have hone : (0 : ℚ) < -posd / vget (mrow box d) d :=
    div_pos (by linarith) hb
  have hfl : (1 : ℤ) ≤ Int.ceil (-posd / vget (mrow box d) d) :=
    Int.lt_ceil.mpr (by exact_mod_cast hone)
  omega

/-- The triclinic correction added to `pos_d` for axis `d`
(`for (j = d+1; j < DIM; j++) pos_d += cg_cm[j]*tcm[j][d]`).
The correction matrix `tcm` comes from `make_tric_corr_matrix` (external). -/
def skewSum (tcm : ℕ → ℕ → ℚ) (d : ℕ) (cgcm : V3) : ℚ :=
  (List.range 3).foldl (fun a j => if d < j then a + vget cgcm j * tcm j d else a) 0

/-- The value of `pos_d` for axis `d` just before the wrapping loops:
`cg_cm[d]`, plus the triclinic correction when
`ddbox.tric_dir[d] && dd->nc[d] > 1`. -/
def posdInit (cfg : DDConfig) (tcm : ℕ → ℕ → ℚ) (d : ℕ) (cgcm : V3) : ℚ :=
  if cfg.tricDir d ∧ 1 < cfg.nc d then vget cgcm d + skewSum tcm d cgcm
  else vget cgcm d

/-- One iteration of the `for (d = DIM-1; d >= 0; d--)` loop (lines 337-389):
for a periodic axis, add the triclinic correction then run both wrapping
loops; for a non-periodic axis `pos_d` is just `cg_cm[d]`.  Returns the
updated group state and the final `pos_d` used for the cell search. -/
def processAxis (cfg : DDConfig) (box : Mat3) (tcm : ℕ → ℕ → ℚ) (d : ℕ)
    (st : GroupState) : GroupState × ℚ :=
  if d < cfg.npbcdim then
    let bScrew := cfg.bScrewPBC && d == 0
    let p0 := posdInit cfg tcm d st.cgcm
    let r1 := wrapDown box d bScrew p0 st
    let r2 := wrapUp box d bScrew r1.1 r1.2
    (r2.2, r2.1)
  else
    (st, vget st.cgcm d)

/-- `ind[d] = 0; while (ind[d]+1 < dd->nc[d] && pos_d >= cellBoundaries[d][ind[d]+1]) ind[d]++`
(lines 391-395), started at `i`. -/
def cellSearch (nc : ℕ) (b : ℕ → ℚ) (posd : ℚ) (i : ℕ) : ℕ :=
  if i + 1 < nc ∧ b (i + 1) ≤ posd then cellSearch nc b posd (i + 1) else i
termination_by nc - i

/-- The reference position `cg_cm` of a group (lines 312-334): the position
itself for a single atom, otherwise the arithmetic mean of the members. -/
def computeCgCm (members : List V3) : V3 :=
  if members.length = 1 then members.headD ⟨0, 0, 0⟩
  else vsmul (1 / (members.length : ℚ)) (vsum members)

/-- The per-group body of `getAtomGroupDistribution` (lines 310-396): compute
`cg_cm`, process the axes from `DIM-1` down to `0`, and search the cell index
on each axis.  Returns the canonicalized member positions and the per-axis
cell indices `(ind[XX], ind[YY], ind[ZZ])`. -/
def assignGroup (cfg : DDConfig) (box : Mat3) (tcm : ℕ → ℕ → ℚ)
    (members : List V3) : List V3 × (ℕ × ℕ × ℕ) :=
  let st0 : GroupState := ⟨computeCgCm members, members⟩
  let a2 := processAxis cfg box tcm 2 st0
  let a1 := processAxis cfg box tcm 1 a2.1
  let a0 := processAxis cfg box tcm 0 a1.1
  (a0.1.members,
   (cellSearch (cfg.nc 0) (cfg.bounds 0) a0.2 0,
    cellSearch (cfg.nc 1) (cfg.bounds 1) a1.2 0,
    cellSearch (cfg.nc 2) (cfg.bounds 2) a2.2 0))

/-- The canonicalization that assignment applies to the member positions of
one group (its in-place side effect on `pos`). -/
def canonPositions (cfg : DDConfig) (box : Mat3) (tcm : ℕ → ℕ → ℚ)
    (members : List V3) : List V3 :=
  (assignGroup cfg box tcm members).1

/-- Modelled from the spec: `dd_index` (declared in `domdec_internal.h`, not
under `src/`) combines the three per-axis cell indices row-major into one
linear domain id. -/
def dd_index (nc : ℕ → ℕ) (ind : ℕ × ℕ × ℕ) : ℕ :=
  (ind.1 * nc 1 + ind.2.1) * nc 2 + ind.2.2

/-- Replace the element at index `i` (no-op when out of range). -/
def updateAt {α : Type} (i : ℕ) (f : α → α) : List α → List α
  | [] => []
  | a :: t =>
    match i with
    | 0 => f a :: t
    | j + 1 => a :: updateAt j f t

/-- The master-side output of `getAtomGroupDistribution`: the per-domain group
lists (`indices`), the per-domain atom counts (`ma->domainGroups[rank].numAtoms`)
and the global position array, which the function mutates in place. -/
structure DistState where
  indices : List (List ℕ)
  numAtoms : List ℕ
  pos : List V3
deriving Repr

/-- One iteration of the loop over charge groups (lines 310-400): slice the
group's member positions out of `pos`, assign the group, append its id to the
destination domain's list, add its atom count, and write the canonicalized
member positions back into `pos`. -/
def distStep (cfg : DDConfig) (box : Mat3) (tcm : ℕ → ℕ → ℚ) (cgindex : ℕ → ℕ)
    (st : DistState) (icg : ℕ) : DistState :=
  let k0 := cgindex icg
  let k1 := cgindex (icg + 1)
  let members := (st.pos.drop k0).take (k1 - k0)
  let r := assignGroup cfg box tcm members
  let dom := dd_index cfg.nc r.2
  ⟨updateAt dom (fun l => l ++ [icg]) st.indices,
   updateAt dom (fun n => n + (k1 - k0)) st.numAtoms,
   (st.pos.take k0) ++ r.1 ++ (st.pos.drop k1)⟩

/-- `getAtomGroupDistribution` (lines 284-433): clear the per-domain atom
counts, then assign every charge group `0 ≤ icg < cgs->nr` to a domain.
`cgindex` is `cgs->index`, `pos` the master's global position array. -/
def getAtomGroupDistribution (cfg : DDConfig) (box : Mat3) (tcm : ℕ → ℕ → ℚ)
    (cgindex : ℕ → ℕ) (nr : ℕ) (pos : List V3) : DistState :=
  (List.range nr).foldl (distStep cfg box tcm cgindex)
    ⟨List.replicate (nnodes cfg) [], List.replicate (nnodes cfg) 0, pos⟩

/-- The segment `[off, off + len)` of a buffer (a scatter piece). -/
def segmentOf {α : Type} (buf : List α) (off len : ℕ) : List α :=
  (buf.drop off).take len

/-- One entry of `ma->domainGroups`: the ordered atom-group list assigned to a
domain and its summed atom count. -/
structure DomainGroupsData where
  atomGroups : List ℕ
  numAtoms : ℕ
deriving DecidableEq, Repr, Inhabited

/-- The distribution ledger `AtomDistribution` (master only): the fields of
`dd->ma` read by the distribution functions. -/
structure AtomDistributionData where
  domainGroups : List DomainGroupsData
deriving DecidableEq, Repr, Inhabited

/-- The packing loop shared by both strategies: for each group `cg` of a
domain, copy `v[cgs->index[cg] .. cgs->index[cg+1])` to consecutive local
slots. -/
def packGroups (cgindex : ℕ → ℕ) (v : List V3) (groups : List ℕ) : List V3 :=
  groups.flatMap fun cg => segmentOf v (cgindex cg) (cgindex (cg + 1) - cgindex cg)

/-- `dd_distribute_vec_sendrecv` (lines 64-122), modelled by its data effect:
the master packs rank `r`'s payload (`ma->domainGroups[r].atomGroups`) into a
scratch buffer and sends it; rank `r`'s `lv` receives exactly those packed
positions, and the master fills its own `lv` by the same loop without
transport.  Result: per rank, the local array `lv`. -/
def dd_distribute_vec_sendrecv (ma : AtomDistributionData) (cgindex : ℕ → ℕ)
    (v : List V3) : List (List V3) :=
  (List.range ma.domainGroups.length).map fun rank =>
    packGroups cgindex v ((ma.domainGroups.getD rank default).atomGroups)

/-- Modelled from the spec: `get_commbuffer_counts` (in `atomdistribution.cpp`,
not under `src/`) returns per-domain byte counts and offsets for the scatter;
counts are the per-domain atom counts (in `rvec` units here) and offsets their
prefix sums. -/
def commCounts (ma : AtomDistributionData) : List ℕ :=
  ma.domainGroups.map (fun dg => dg.numAtoms)

/-- Offset of rank `r`'s piece in the scatter buffer. -/
def commDispl (ma : AtomDistributionData) (r : ℕ) : ℕ :=
  ((commCounts ma).take r).sum

/-- The master's fill loop of `dd_distribute_vec_scatterv` (lines 136-148):
all domains' payloads packed contiguously in rank order. -/
def scattervFillBuffer (ma : AtomDistributionData) (cgindex : ℕ → ℕ)
    (v : List V3) : List V3 :=
  ma.domainGroups.flatMap fun dg => packGroups cgindex v dg.atomGroups

/-- `dd_distribute_vec_scatterv` (lines 124-154), modelled by its data effect:
`dd_scatterv` hands rank `r` the segment of the packed buffer at
`displacements[r]` of length `sendCounts[r]`. -/
def dd_distribute_vec_scatterv (ma : AtomDistributionData) (cgindex : ℕ → ℕ)
    (v : List V3) : List (List V3) :=
  (List.range ma.domainGroups.length).map fun rank =>
    segmentOf (scattervFillBuffer ma cgindex v) (commDispl ma rank)
      ((commCounts ma).getD rank 0)

/-- `dd_distribute_vec` (lines 156-167): strategy selection by domain count
against the threshold `c_maxNumRanksUseSendRecvForScatterAndGather`
(constant in `domdec_internal.h`, not under `src/`; kept as a parameter). -/
def dd_distribute_vec (threshold : ℕ) (ma : AtomDistributionData)
    (cgindex : ℕ → ℕ) (v : List V3) : List (List V3) :=
  if ma.domainGroups.length ≤ threshold then
    dd_distribute_vec_sendrecv ma cgindex v
  else
    dd_distribute_vec_scatterv ma cgindex v

/-- The per-rank home data set up by `distributeAtomGroups` (lines 435-528):
`dd->ncg_home`, `dd->nat_home`, the received global group ids `dd->index_gl`
and the local group-boundary index `dd->cgindex`. -/
structure DomdecHome where
  ncg_home : ℕ
  nat_home : ℕ
  index_gl : List ℕ
  cgindexLocal : List ℕ
deriving DecidableEq, Repr, Inhabited

/-- `dd->cgindex`: `cgindex[0] = 0`,
`cgindex[i+1] = cgindex[i] + cgs->index[gl+1] - cgs->index[gl]` (lines 507-513). -/
def localCgIndex (cgindex : ℕ → ℕ) (index_gl : List ℕ) : List ℕ :=
  index_gl.foldl (fun acc gl =>
    acc ++ [acc.getLastD 0 + (cgindex (gl + 1) - cgindex gl)]) [0]

/-- `distributeAtomGroups` (lines 435-528), master side plus the data effect of
the two scatters: rank `r` learns its group count and atom count, and receives
its group ids as the segment of the concatenated `ma->atomGroups` buffer at its
precomputed offset. -/
def distributeAtomGroups (cfg : DDConfig) (box : Mat3) (tcm : ℕ → ℕ → ℚ)
    (cgindex : ℕ → ℕ) (nr : ℕ) (pos : List V3) : DistState × List DomdecHome :=
  let dist := getAtomGroupDistribution cfg box tcm cgindex nr pos
  let atomGroupsBuf := dist.indices.flatten
  (dist,
   (List.range (nnodes cfg)).map fun rank =>
     let size := (dist.indices.getD rank []).length
     let offset := ((dist.indices.take rank).map List.length).sum
     let received := segmentOf atomGroupsBuf offset size
     { ncg_home := size,
       nat_home := dist.numAtoms.getD rank 0,
       index_gl := received,
       cgindexLocal := localCgIndex cgindex received })

/-- Number of free-energy-perturbation lambda components `efptNR`
(enum in `mdtypes/md_enums.h`, external; its exact value is irrelevant to the
claims). -/
def efptNR : ℕ := 7

/-- The free-energy history `df_history_t` (fields of `mdtypes/df_history.h`
read by `dd_distribute_dfhist`): header scalars, per-lambda vectors and
`nlambda × nlambda` accumulation/transition matrices. -/
structure DfHistory where
  bEquil : Int
  nlambda : Int
  wl_delta : ℚ
  n_at_lam : List Int
  wl_histo : List ℚ
  sum_weights : List ℚ
  sum_dg : List ℚ
  sum_minvar : List ℚ
  sum_variance : List ℚ
  accum_p : List (List ℚ)
  accum_m : List (List ℚ)
  accum_p2 : List (List ℚ)
  accum_m2 : List (List ℚ)
  Tij : List (List ℚ)
  Tij_empirical : List (List ℚ)
deriving DecidableEq, Repr, Inhabited

/-- Data effect of `dd_bcast` of `n` elements into an array: the first `n`
entries of the receiver are overwritten with the master's first `n` entries. -/
def spliceList {α : Type} (src dst : List α) (n : ℕ) : List α :=
  src.take n ++ dst.drop n

/-- Data effect of the per-row broadcast loop over an `nlambda × nlambda`
matrix (lines 190-198): rows `i < n` get the master's row contents. -/
def spliceRows {α : Type} (src dst : List (List α)) (n : ℕ) : List (List α) :=
  (List.range dst.length).map fun i =>
    if i < n then spliceList (src.getD i []) (dst.getD i []) n
    else dst.getD i []

/-- What one receiving rank's history holds after `dd_distribute_dfhist`'s
broadcasts, given the master's history `hm` and the rank's own `hr`: the three
header scalars always (note `nlambda` is broadcast before the
`dfhist->nlambda > 0` test, so the test sees the master's value on every
rank); the sized vectors and matrices only when `nlambda > 0`. -/
def recvDfhist (hm hr : DfHistory) : DfHistory :=
  let h1 : DfHistory :=
    { hr with bEquil := hm.bEquil, nlambda := hm.nlambda, wl_delta := hm.wl_delta }
  if 0 < hm.nlambda then
    let nl := hm.nlambda.toNat
    { h1 with
      n_at_lam := spliceList hm.n_at_lam h1.n_at_lam nl,
      wl_histo := spliceList hm.wl_histo h1.wl_histo nl,
      sum_weights := spliceList hm.sum_weights h1.sum_weights nl,
      sum_dg := spliceList hm.sum_dg h1.sum_dg nl,
      sum_minvar := spliceList hm.sum_minvar h1.sum_minvar nl,
      sum_variance := spliceList hm.sum_variance h1.sum_variance nl,
      accum_p := spliceRows hm.accum_p h1.accum_p nl,
      accum_m := spliceRows hm.accum_m h1.accum_m nl,
      accum_p2 := spliceRows hm.accum_p2 h1.accum_p2 nl,
      accum_m2 := spliceRows hm.accum_m2 h1.accum_m2 nl,
      Tij := spliceRows hm.Tij h1.Tij nl,
      Tij_empirical := spliceRows hm.Tij_empirical h1.Tij_empirical nl }
  else h1

/-- One rank's view of the collective `dd_distribute_dfhist`: a rank whose
local pointer is null returns at once (lines 171-174); otherwise its fields
receive the master's broadcast values (when the master's pointer is null
nothing is broadcast, so the rank's data stays unchanged; in the running
program such a rank would block). -/
def recvOpt (m h : Option DfHistory) : Option DfHistory :=
  match h, m with
  | none, _ => none
  | some hr, none => some hr
  | some hr, some hm => some (recvDfhist hm hr)

/-- `dd_distribute_dfhist` (lines 169-200) as a collective over all ranks,
each rank holding `state_local->dfhist`. -/
def dd_distribute_dfhist (masterRank : ℕ) (locals : List (Option DfHistory)) :
    List (Option DfHistory) :=
  locals.map (recvOpt (locals.getD masterRank none))

/-- The `df_history` part of `dd_distribute_state` (lines 224-227 and 262-263):
on the master, `copy_df_history(state_local->dfhist, state->dfhist)` when the
global pointer is non-null (external helper from `mdtypes/df_history.h`,
modelled as replacing the master's local history contents by the global one);
then the collective `dd_distribute_dfhist` on the local pointers. -/
def distributeDfhistPhase (masterRank : ℕ) (globalDfhist : Option DfHistory)
    (locals : List (Option DfHistory)) : List (Option DfHistory) :=
  let locals1 := updateAt masterRank
    (fun h => match globalDfhist with
      | some g => some g
      | none => h) locals
  dd_distribute_dfhist masterRank locals1

/-- The fields of `t_state` read or written by `dd_distribute_state`
(`mdtypes/state.h`): sizes, scalar/matrix/array fields, the optional
free-energy history, the per-atom field flags (`estX`, `estV`, `estCGP` bits
of `state->flags`) and the per-atom vectors. -/
structure TState where
  nhchainlength : ℕ
  ngtc : ℕ
  nnhpres : ℕ
  lambda : List ℚ
  fep_state : Int
  veta : ℚ
  vol0 : ℚ
  boxm : Mat3
  box_rel : Mat3
  boxv : Mat3
  svir_prev : Mat3
  fvir_prev : Mat3
  nosehoover_xi : List ℚ
  nosehoover_vxi : List ℚ
  therm_integral : List ℚ
  nhpres_xi : List ℚ
  nhpres_vxi : List ℚ
  baros_integral : ℚ
  dfhist : Option DfHistory
  flag_x : Bool
  flag_v : Bool
  flag_cgp : Bool
  x : List V3
  v : List V3
  cg_p : List V3
deriving DecidableEq, Repr, Inhabited

/-- The master-only copy phase of `dd_distribute_state` (lines 208-246):
global scalar/array state copied into the master's local state.  The loops
copy `efptNR` lambdas, `ngtc*nh` and `nnhpres*nh` chain variables and `ngtc`
thermostat integrals; `copy_mat` copies whole matrices. -/
def masterCopy (global masterLocal : TState) (nh : ℕ) : TState :=
  { masterLocal with
    lambda := spliceList global.lambda masterLocal.lambda efptNR,
    fep_state := global.fep_state,
    veta := global.veta,
    vol0 := global.vol0,
    boxm := global.boxm,
    box_rel := global.box_rel,
    boxv := global.boxv,
    svir_prev := global.svir_prev,
    fvir_prev := global.fvir_prev,
    dfhist := masterLocal.dfhist,
    nosehoover_xi := spliceList global.nosehoover_xi masterLocal.nosehoover_xi
      (masterLocal.ngtc * nh),
    nosehoover_vxi := spliceList global.nosehoover_vxi masterLocal.nosehoover_vxi
      (masterLocal.ngtc * nh),
    therm_integral := spliceList global.therm_integral masterLocal.therm_integral
      masterLocal.ngtc,
    nhpres_xi := spliceList global.nhpres_xi masterLocal.nhpres_xi
      (masterLocal.nnhpres * nh),
    nhpres_vxi := spliceList global.nhpres_vxi masterLocal.nhpres_vxi
      (masterLocal.nnhpres * nh),
    baros_integral := global.baros_integral }

/-- The broadcast phase of `dd_distribute_state` (lines 247-260): every rank's
scalar/array fields receive the master's values (`dd_bcast` of the stated
counts; `baros_integral` is copied on the master but not broadcast). -/
def bcastPhase (masterLocal own : TState) (nh : ℕ) : TState :=
  { own with
    lambda := spliceList masterLocal.lambda own.lambda efptNR,
    fep_state := masterLocal.fep_state,
    veta := masterLocal.veta,
    vol0 := masterLocal.vol0,
    boxm := masterLocal.boxm,
    box_rel := masterLocal.box_rel,
    boxv := masterLocal.boxv,
    svir_prev := masterLocal.svir_prev,
    fvir_prev := masterLocal.fvir_prev,
    nosehoover_xi := spliceList masterLocal.nosehoover_xi own.nosehoover_xi
      (own.ngtc * nh),
    nosehoover_vxi := spliceList masterLocal.nosehoover_vxi own.nosehoover_vxi
      (own.ngtc * nh),
    therm_integral := spliceList masterLocal.therm_integral own.therm_integral
      own.ngtc,
    nhpres_xi := spliceList masterLocal.nhpres_xi own.nhpres_xi
      (own.nnhpres * nh),
    nhpres_vxi := spliceList masterLocal.nhpres_vxi own.nhpres_vxi
      (own.nnhpres * nh) }

/-- Modelled from the spec: `dd_resize_state` (in `mdtypes/state.h`/domdec
utilities, not under `src/`) resizes the local per-atom storage to the learned
local atom count. -/
def resizeTo (n : ℕ) (l : List V3) : List V3 :=
  l.take n ++ List.replicate (n - l.length) ⟨0, 0, 0⟩

/-- `dd_distribute_state` (lines 202-282) as a collective: the
`GMX_RELEASE_ASSERT` on the Nose-Hoover chain lengths aborts the whole run on
a mismatch (modelled as `Except.error`); otherwise the master copy, the
broadcasts, the `df_history` distribution, the resize of local per-atom
storage to `nat_home`, and one `dd_distribute_vec` per active per-atom field
(reading the master's global arrays). -/
def dd_distribute_state (threshold : ℕ) (masterRank : ℕ) (cgindex : ℕ → ℕ)
    (ma : AtomDistributionData) (natHome : ℕ → ℕ)
    (global : TState) (locals : List TState) : Except String (List TState) :=
  let masterLocal := locals.getD masterRank default
  let nh := masterLocal.nhchainlength
  if global.nhchainlength ≠ nh then
    Except.error "The global and local Nose-Hoover chain lengths should match"
  else
    let locals1 := updateAt masterRank (fun ml => masterCopy global ml nh) locals
    let masterLocal1 := locals1.getD masterRank default
    let locals2 := locals1.map fun own => bcastPhase masterLocal1 own nh
    let dfhists := distributeDfhistPhase masterRank global.dfhist
      (locals2.map (fun s => s.dfhist))
    let locals3 := (List.range locals2.length).map fun r =>
      { locals2.getD r default with dfhist := dfhists.getD r none }
    let locals4 := (List.range locals3.length).map fun r =>
      let own := locals3.getD r default
      { own with
        x := resizeTo (natHome r) own.x,
        v := resizeTo (natHome r) own.v,
        cg_p := resizeTo (natHome r) own.cg_p }
    let xs := dd_distribute_vec threshold ma cgindex global.x
    let vs := dd_distribute_vec threshold ma cgindex global.v
    let cgps := dd_distribute_vec threshold ma cgindex global.cg_p
    Except.ok ((List.range locals4.length).map fun r =>
      let own := locals4.getD r default
      let own1 := if own.flag_x then { own with x := xs.getD r [] } else own
      let own2 := if own1.flag_v then { own1 with v := vs.getD r [] } else own1
      if own2.flag_cgp then { own2 with cg_p := cgps.getD r [] } else own2)

/-- Build the ledger `dd->ma` from the computed distribution (the
`domainGroups[rank].atomGroups`/`numAtoms` views set up in
`distributeAtomGroups`, lines 481-498). -/
def maOfDist (cfg : DDConfig) (dist : DistState) : AtomDistributionData :=
  ⟨(List.range (nnodes cfg)).map fun rank =>
    ⟨dist.indices.getD rank [], dist.numAtoms.getD rank 0⟩⟩

/-- `distributeState` (lines 530-546): run the assignment on the master's
global position array `state_global->x` (mutating it in place — the returned
first component is the caller-visible global state after the call), then
`dd_distribute_state`. -/
def distributeState (threshold : ℕ) (cfg : DDConfig) (tcm : ℕ → ℕ → ℚ)
    (cgindex : ℕ → ℕ) (nr : ℕ) (masterRank : ℕ)
    (global : TState) (locals : List TState) :
    TState × Except String (List TState) :=
  let dist := getAtomGroupDistribution cfg global.boxm tcm cgindex nr global.x
  let globalAfter := { global with x := dist.pos }
  let ma := maOfDist cfg dist
  (globalAfter,
   dd_distribute_state threshold masterRank cgindex ma
     (fun r => dist.numAtoms.getD r 0) globalAfter locals)

/-! ### Helper lemmas: `updateAt`, counting and sums -/

theorem updateAt_length {α : Type} (i : ℕ) (f : α → α) (l : List α) :
    (updateAt i f l).length = l.length := by
  induction l generalizing i with
  | nil => simp [updateAt]
  | cons a t ih =>
    cases i with
    | zero => simp [updateAt]
    | succ j => simpa [updateAt] using ih j

theorem flatten_count_updateAt (i : ℕ) (x g : ℕ) (l : List (List ℕ))
    (hi : i < l.length) :
    ((updateAt i (fun s => s ++ [x]) l).flatten).count g
      = l.flatten.count g + (if g = x then 1 else 0) := by
  induction l generalizing i with
  | nil => simp at hi
  | cons a t ih =>
    cases i with
    | zero =>
      simp only [updateAt, List.flatten_cons, List.count_append]
      have : List.count g [x] = if g = x then 1 else 0 := by
        simp [List.count_cons, beq_iff_eq]
        by_cases hgx : x = g <;> simp [hgx, eq_comm]
      omega
    | succ j =>
      simp only [updateAt, List.flatten_cons, List.count_append]
      have hj : j < t.length := by simpa using hi
      have := ih j hj
      omega

theorem sum_updateAt_add (i m : ℕ) (l : List ℕ) (hi : i < l.length) :
    (updateAt i (fun n => n + m) l).sum = l.sum + m := by
  induction l generalizing i with
  | nil => simp at hi
  | cons a t ih =>
    cases i with
    | zero => simp [updateAt]; omega
    | succ j =>
      have hj : j < t.length := by simpa using hi
      simp only [updateAt, List.sum_cons]
      have := ih j hj
      omega

theorem cellSearch_lt (nc : ℕ) (b : ℕ → ℚ) (p : ℚ) (i : ℕ) (hi : i < nc) :
    cellSearch nc b p i < nc := by
  rw [cellSearch]
  split
  case isTrue h => exact cellSearch_lt nc b p (i + 1) h.1
  case isFalse h => exact hi
termination_by nc - i
decreasing_by omega

theorem dd_index_lt (n0 n1 n2 a b c : ℕ)
    (ha : a < n0) (hb : b < n1) (hc : c < n2) :
    (a * n1 + b) * n2 + c < n0 * n1 * n2 := by
  have h1 : a * n1 + b + 1 ≤ n0 * n1 := by
    calc a * n1 + b + 1 ≤ a * n1 + n1 := by omega
    _ = (a + 1) * n1 := by ring
    _ ≤ n0 * n1 := Nat.mul_le_mul_right n1 ha
  calc (a * n1 + b) * n2 + c < (a * n1 + b) * n2 + n2 := by omega
  _ = (a * n1 + b + 1) * n2 := by ring
  _ ≤ n0 * n1 * n2 := Nat.mul_le_mul_right n2 h1

/-- The domain id computed for any group is a valid domain. -/
theorem domainIndex_lt (cfg : DDConfig) (box : Mat3) (tcm : ℕ → ℕ → ℚ)
    (members : List V3)
    (h0 : 0 < cfg.nc 0) (h1 : 0 < cfg.nc 1) (h2 : 0 < cfg.nc 2) :
    dd_index cfg.nc (assignGroup cfg box tcm members).2 < nnodes cfg := by
  unfold assignGroup dd_index nnodes
  exact dd_index_lt _ _ _ _ _ _
    (cellSearch_lt _ _ _ 0 h0) (cellSearch_lt _ _ _ 0 h1) (cellSearch_lt _ _ _ 0 h2)

theorem getAtomGroupDistribution_lengths (cfg : DDConfig) (box : Mat3)
    (tcm : ℕ → ℕ → ℚ) (cgindex : ℕ → ℕ) (nr : ℕ) (pos : List V3) :
    (getAtomGroupDistribution cfg box tcm cgindex nr pos).indices.length = nnodes cfg ∧
    (getAtomGroupDistribution cfg box tcm cgindex nr pos).numAtoms.length = nnodes cfg := by
  unfold getAtomGroupDistribution
  induction nr with
  | zero => simp
  | succ n ih =>
    rw [List.range_succ, List.foldl_append, List.foldl_cons, List.foldl_nil]
    simpa [distStep, updateAt_length] using ih

theorem getAtomGroupDistribution_count (cfg : DDConfig) (box : Mat3)
    (tcm : ℕ → ℕ → ℚ) (cgindex : ℕ → ℕ)
    (h0 : 0 < cfg.nc 0) (h1 : 0 < cfg.nc 1) (h2 : 0 < cfg.nc 2)
    (nr : ℕ) (pos : List V3) (g : ℕ) :
    (getAtomGroupDistribution cfg box tcm cgindex nr pos).indices.flatten.count g
      = if g < nr then 1 else 0 := by
  induction nr with
  | zero =>
    simp [getAtomGroupDistribution]
  | succ n ih =>
    have hlen := (getAtomGroupDistribution_lengths cfg box tcm cgindex n pos).1
    have hstep : getAtomGroupDistribution cfg box tcm cgindex (n + 1) pos
        = distStep cfg box tcm cgindex
          (getAtomGroupDistribution cfg box tcm cgindex n pos) n := by
      unfold getAtomGroupDistribution
      rw [List.range_succ, List.foldl_append, List.foldl_cons, List.foldl_nil]
    set st := getAtomGroupDistribution cfg box tcm cgindex n pos with hst
    have hdom : dd_index cfg.nc
        (assignGroup cfg box tcm ((st.pos.drop (cgindex n)).take
          (cgindex (n + 1) - cgindex n))).2 < st.indices.length := by
      rw [hlen]
      exact domainIndex_lt cfg box tcm _ h0 h1 h2
    rw [hstep]
    show ((updateAt _ (fun l => l ++ [n]) st.indices).flatten).count g = _
    rw [flatten_count_updateAt _ _ _ _ hdom, ih]
    by_cases hg : g = n
    · subst hg
      simp
    · by_cases hlt : g < n
      · simp [hlt, hg, Nat.lt_succ_of_lt hlt]
      · have : ¬ g < n + 1 := by omega
        simp [hlt, hg, this]

theorem getAtomGroupDistribution_sum (cfg : DDConfig) (box : Mat3)
    (tcm : ℕ → ℕ → ℚ) (cgindex : ℕ → ℕ)
    (h0 : 0 < cfg.nc 0) (h1 : 0 < cfg.nc 1) (h2 : 0 < cfg.nc 2)
    (hmono : ∀ i, cgindex i ≤ cgindex (i + 1))
    (nr : ℕ) (pos : List V3) :
    (getAtomGroupDistribution cfg box tcm cgindex nr pos).numAtoms.sum + cgindex 0
      = cgindex nr := by
  induction nr with
  | zero =>
    simp [getAtomGroupDistribution]
  | succ n ih =>
    have hlen := (getAtomGroupDistribution_lengths cfg box tcm cgindex n pos).2
    have hstep : getAtomGroupDistribution cfg box tcm cgindex (n + 1) pos
        = distStep cfg box tcm cgindex
          (getAtomGroupDistribution cfg box tcm cgindex n pos) n := by
      unfold getAtomGroupDistribution
      rw [List.range_succ, List.foldl_append, List.foldl_cons, List.foldl_nil]
    set st := getAtomGroupDistribution cfg box tcm cgindex n pos with hst
    have hdom : dd_index cfg.nc
        (assignGroup cfg box tcm ((st.pos.drop (cgindex n)).take
          (cgindex (n + 1) - cgindex n))).2 < st.numAtoms.length := by
      rw [hlen]
      exact domainIndex_lt cfg box tcm _ h0 h1 h2
    rw [hstep]
    show (updateAt _ (fun m => m + (cgindex (n + 1) - cgindex n)) st.numAtoms).sum
        + cgindex 0 = cgindex (n + 1)
    rw [sum_updateAt_add _ _ _ hdom]
    have := hmono n
    omega

/-- **C1.** `getAtomGroupDistribution` assigns every atom group to exactly one
domain: over all per-domain group lists together, every group id `g < nr`
occurs exactly once and no other id occurs at all — so the union of the lists
is the full id set, no id is in two lists, and no list repeats an id. -/
theorem claim_C1_partition (cfg : DDConfig) (box : Mat3) (tcm : ℕ → ℕ → ℚ)
    (cgindex : ℕ → ℕ) (nr : ℕ) (pos : List V3)
    (h0 : 0 < cfg.nc 0) (h1 : 0 < cfg.nc 1) (h2 : 0 < cfg.nc 2) :
    ∀ g, (getAtomGroupDistribution cfg box tcm cgindex nr pos).indices.flatten.count g
      = if g < nr then 1 else 0 :=
  fun g => getAtomGroupDistribution_count cfg box tcm cgindex h0 h1 h2 nr pos g

/-- Witness for C1 on a concrete input: a 2×1×1 grid, box of side 4, four
single-atom groups. -/
theorem claim_C1_partition_witness :
    ((0 : ℕ) < 2 ∧ (0 : ℕ) < 1 ∧ (0 : ℕ) < 1) ∧
    (∀ g, (getAtomGroupDistribution
        ⟨fun d => if d = 0 then 2 else 1, 3, false, fun _ => false,
          fun _ i => 2 * i⟩
        ⟨⟨4, 0, 0⟩, ⟨0, 4, 0⟩, ⟨0, 0, 4⟩⟩ (fun _ _ => 0) id 4
        [⟨1, 1, 1⟩, ⟨3, 1, 1⟩, ⟨1, 2, 2⟩, ⟨3, 2, 2⟩]).indices.flatten.count g
      = if g < 4 then 1 else 0) :=
  ⟨⟨by decide, by decide, by decide⟩,
   claim_C1_partition _ _ _ id 4 _ (by decide) (by decide) (by decide)⟩

theorem map_getD_range {α : Type} (d : α) (l : List α) :
    (List.range l.length).map (fun r => l.getD r d) = l := by
  induction l with
  | nil => simp
  | cons a t ih =>
    rw [List.length_cons, List.range_succ_eq_map, List.map_cons, List.map_map]
    have hcomp : ((fun r => (a :: t).getD r d) ∘ Nat.succ) = fun r => t.getD r d := by
      funext r
      rfl
    rw [hcomp]
    simpa using ih

/-- **C2.** For every valid input (monotone group index table starting at 0,
positive grid), the per-domain atom counts computed by
`getAtomGroupDistribution` — which `distributeAtomGroups` scatters to become
each rank's `nat_home` — sum to the global atom count `cgs->index[cgs->nr]`. -/
theorem claim_C2_atom_count_sum (cfg : DDConfig) (box : Mat3) (tcm : ℕ → ℕ → ℚ)
    (cgindex : ℕ → ℕ) (nr : ℕ) (pos : List V3)
    (h0 : 0 < cfg.nc 0) (h1 : 0 < cfg.nc 1) (h2 : 0 < cfg.nc 2)
    (hmono : ∀ i, cgindex i ≤ cgindex (i + 1)) (hzero : cgindex 0 = 0) :
    (getAtomGroupDistribution cfg box tcm cgindex nr pos).numAtoms.sum = cgindex nr ∧
    (((distributeAtomGroups cfg box tcm cgindex nr pos).2.map
        (fun h => h.nat_home)).sum = cgindex nr) := by
  have hsum := getAtomGroupDistribution_sum cfg box tcm cgindex h0 h1 h2 hmono nr pos
  have hmain : (getAtomGroupDistribution cfg box tcm cgindex nr pos).numAtoms.sum
      = cgindex nr := by omega
  refine ⟨hmain, ?_⟩
  have hlen := (getAtomGroupDistribution_lengths cfg box tcm cgindex nr pos).2
  unfold distributeAtomGroups
  simp only [List.map_map]
  have : ((List.range (nnodes cfg)).map
      (fun r => (getAtomGroupDistribution cfg box tcm cgindex nr pos).numAtoms.getD r 0))
      = (getAtomGroupDistribution cfg box tcm cgindex nr pos).numAtoms := by
    rw [← hlen]
    exact map_getD_range 0 _
  calc ((List.range (nnodes cfg)).map ((fun h => h.nat_home) ∘ fun rank =>
      ({ ncg_home := _, nat_home := (getAtomGroupDistribution cfg box tcm cgindex nr pos).numAtoms.getD rank 0,
         index_gl := _, cgindexLocal := _ } : DomdecHome))).sum
      = ((List.range (nnodes cfg)).map
        (fun r => (getAtomGroupDistribution cfg box tcm cgindex nr pos).numAtoms.getD r 0)).sum := by
        rfl
  _ = cgindex nr := by rw [this, hmain]

/-- Witness for C2 on the concrete input of the C1 witness. -/
theorem claim_C2_atom_count_sum_witness :
    ((0 : ℕ) < 2 ∧ (0 : ℕ) < 1 ∧ (0 : ℕ) < 1 ∧ (∀ i, id i ≤ id (i + 1)) ∧ id 0 = 0) ∧
    ((getAtomGroupDistribution
        ⟨fun d => if d = 0 then 2 else 1, 3, false, fun _ => false, fun _ i => 2 * i⟩
        ⟨⟨4, 0, 0⟩, ⟨0, 4, 0⟩, ⟨0, 0, 4⟩⟩ (fun _ _ => 0) id 4
        [⟨1, 1, 1⟩, ⟨3, 1, 1⟩, ⟨1, 2, 2⟩, ⟨3, 2, 2⟩]).numAtoms.sum = id 4 ∧
     ((distributeAtomGroups
        ⟨fun d => if d = 0 then 2 else 1, 3, false, fun _ => false, fun _ i => 2 * i⟩
        ⟨⟨4, 0, 0⟩, ⟨0, 4, 0⟩, ⟨0, 0, 4⟩⟩ (fun _ _ => 0) id 4
        [⟨1, 1, 1⟩, ⟨3, 1, 1⟩, ⟨1, 2, 2⟩, ⟨3, 2, 2⟩]).2.map
          (fun h => h.nat_home)).sum = id 4) :=
  ⟨⟨by decide, by decide, by decide, fun i => Nat.le_succ i, rfl⟩,
   claim_C2_atom_count_sum _ _ _ id 4 _ (by decide) (by decide) (by decide)
     (fun i => Nat.le_succ i) rfl⟩

/-! ### C3: the two transfer strategies agree -/

theorem flatten_segment {α : Type} (L : List (List α)) (r : ℕ) :
    segmentOf L.flatten (((L.take r).map List.length).sum) ((L.getD r []).length)
      = L.getD r [] := by
  induction L generalizing r with
  | nil => simp [segmentOf]
  | cons a t ih =>
    cases r with
    | zero =>
      simp only [List.take_zero, List.map_nil, List.sum_nil, List.getD_cons_zero,
        List.flatten_cons, segmentOf, List.drop_zero]
      exact List.take_left a t.flatten
    | succ r =>
      simp only [List.take_succ_cons, List.map_cons, List.sum_cons,
        List.getD_cons_succ, List.flatten_cons, segmentOf]
      rw [List.drop_append]
      exact ih r

theorem getD_map_length {α : Type} (P : List (List α)) (r : ℕ) :
    (P.map List.length).getD r 0 = (P.getD r []).length := by
  induction P generalizing r with
  | nil => simp
  | cons a t ih =>
    cases r with
    | zero => simp
    | succ r => simpa using ih r

theorem getD_map_fn {α β : Type} (f : α → β) (d : α) (l : List α) (r : ℕ) :
    (l.map f).getD r (f d) = f (l.getD r d) := by
  induction l generalizing r with
  | nil => simp
  | cons a t ih =>
    cases r with
    | zero => simp
    | succ r => simpa using ih r

/-- **C3.** For identical logical input (same ledger, global vector and group
index table), the point-to-point strategy and the collective strategy produce
identical local arrays on every domain; consequently `dd_distribute_vec`
computes the same local arrays below and above the strategy threshold.
Hypothesis: the ledger's per-domain atom counts match its group lists (the
invariant asserted by `GMX_RELEASE_ASSERT` in the send loop and established by
`getAtomGroupDistribution`). -/
theorem claim_C3_strategies_agree (ma : AtomDistributionData) (cgindex : ℕ → ℕ)
    (v : List V3)
    (hcount : ∀ dg ∈ ma.domainGroups,
      (packGroups cgindex v dg.atomGroups).length = dg.numAtoms) :
    dd_distribute_vec_scatterv ma cgindex v = dd_distribute_vec_sendrecv ma cgindex v ∧
    ∀ t1 t2, dd_distribute_vec t1 ma cgindex v = dd_distribute_vec t2 ma cgindex v := by
  have hmain : dd_distribute_vec_scatterv ma cgindex v
      = dd_distribute_vec_sendrecv ma cgindex v := by
    unfold dd_distribute_vec_scatterv dd_distribute_vec_sendrecv
    apply List.map_congr_left
    intro r _
    set P : List (List V3) :=
      ma.domainGroups.map (fun dg => packGroups cgindex v dg.atomGroups) with hP
    have hbuf : scattervFillBuffer ma cgindex v = P.flatten := by
      unfold scattervFillBuffer
      rw [hP, List.flatten_eq_flatMap, List.flatMap_map]
      simp
    have hcc : commCounts ma = P.map List.length := by
      unfold commCounts
      rw [hP, List.map_map]
      apply List.map_congr_left
      intro dg hdg
      exact (hcount dg hdg).symm
    have hdispl : commDispl ma r = ((P.take r).map List.length).sum := by
      unfold commDispl
      rw [hcc, ← List.map_take]
    have hcnt : (commCounts ma).getD r 0 = (P.getD r []).length := by
      rw [hcc, getD_map_length]
    have hget : P.getD r []
        = packGroups cgindex v ((ma.domainGroups.getD r default).atomGroups) := by
      rw [hP]
      exact getD_map_fn (fun dg => packGroups cgindex v dg.atomGroups)
        default ma.domainGroups r
    rw [hbuf, hdispl, hcnt, flatten_segment, hget]
  refine ⟨hmain, ?_⟩
  intro t1 t2
  unfold dd_distribute_vec
  by_cases ha : ma.domainGroups.length ≤ t1 <;>
    by_cases hb : ma.domainGroups.length ≤ t2 <;>
      simp [ha, hb, hmain]

/-- Witness for C3: two domains, two groups of sizes 1 and 2. -/
theorem claim_C3_strategies_agree_witness :
    (∀ dg ∈ (AtomDistributionData.mk [⟨[0], 1⟩, ⟨[1], 2⟩]).domainGroups,
      (packGroups (fun i => 2 * i - (if i = 0 then 0 else 1))
        [⟨1, 0, 0⟩, ⟨2, 0, 0⟩, ⟨3, 0, 0⟩] dg.atomGroups).length = dg.numAtoms) ∧
    (dd_distribute_vec_scatterv (AtomDistributionData.mk [⟨[0], 1⟩, ⟨[1], 2⟩])
        (fun i => 2 * i - (if i = 0 then 0 else 1))
        [⟨1, 0, 0⟩, ⟨2, 0, 0⟩, ⟨3, 0, 0⟩]
      = dd_distribute_vec_sendrecv (AtomDistributionData.mk [⟨[0], 1⟩, ⟨[1], 2⟩])
        (fun i => 2 * i - (if i = 0 then 0 else 1))
        [⟨1, 0, 0⟩, ⟨2, 0, 0⟩, ⟨3, 0, 0⟩] ∧
     ∀ t1 t2, dd_distribute_vec t1 (AtomDistributionData.mk [⟨[0], 1⟩, ⟨[1], 2⟩])
        (fun i => 2 * i - (if i = 0 then 0 else 1))
        [⟨1, 0, 0⟩, ⟨2, 0, 0⟩, ⟨3, 0, 0⟩]
      = dd_distribute_vec t2 (AtomDistributionData.mk [⟨[0], 1⟩, ⟨[1], 2⟩])
        (fun i => 2 * i - (if i = 0 then 0 else 1))
        [⟨1, 0, 0⟩, ⟨2, 0, 0⟩, ⟨3, 0, 0⟩]) :=
  ⟨by decide, claim_C3_strategies_agree _ _ _ (by decide)⟩

/-! ### C4: the boundary search picks the largest boundary at or below `pos_d` -/

theorem cellSearch_ge (nc : ℕ) (b : ℕ → ℚ) (p : ℚ) (i : ℕ) :
    i ≤ cellSearch nc b p i := by
  rw [cellSearch]
  split
  case isTrue h => exact Nat.le_of_succ_le (cellSearch_ge nc b p (i + 1))
  case isFalse h => exact Nat.le_refl i
termination_by nc - i
decreasing_by omega

theorem cellSearch_le_pos (nc : ℕ) (b : ℕ → ℚ) (p : ℚ) (i : ℕ) (hbi : b i ≤ p) :
    b (cellSearch nc b p i) ≤ p := by
  rw [cellSearch]
  split
  case isTrue h => exact cellSearch_le_pos nc b p (i + 1) h.2
  case isFalse h => exact hbi
termination_by nc - i
decreasing_by omega

theorem cellSearch_above (nc : ℕ) (b : ℕ → ℚ) (p : ℚ)
    (hmono : ∀ i j, i ≤ j → j < nc → b i ≤ b j) (i : ℕ) :
    ∀ j, cellSearch nc b p i < j → j < nc → p < b j := by
  rw [cellSearch]
  split
  case isTrue h => exact cellSearch_above nc b p hmono (i + 1)
  case isFalse h =>
    intro j hij hj
    rcases Decidable.not_and_iff_or_not.mp h with hcase | hcase
    · omega
    · have hle : b (i + 1) ≤ b j := hmono (i + 1) j (by omega) hj
      have := lt_of_not_le hcase
      linarith
termination_by nc - i
decreasing_by omega

/-- **C4.** On each axis the chosen cell index is the largest boundary index
whose boundary value is at most the wrapped position, clamped below the cell
count; and the three per-axis indices are combined row-major
(`(ind[XX]*nc[YY] + ind[YY])*nc[ZZ] + ind[ZZ]`) into one linear domain id. -/
theorem claim_C4_cell_choice (nc : ℕ) (b : ℕ → ℚ) (posd : ℚ)
    (hnc : 0 < nc) (hmono : ∀ i j, i ≤ j → j < nc → b i ≤ b j)
    (h0 : b 0 ≤ posd) :
    (cellSearch nc b posd 0 < nc ∧
     b (cellSearch nc b posd 0) ≤ posd ∧
     (∀ i, i < nc → b i ≤ posd → i ≤ cellSearch nc b posd 0)) ∧
    (∀ (nc3 : ℕ → ℕ) (i0 i1 i2 : ℕ),
      dd_index nc3 (i0, i1, i2) = (i0 * nc3 1 + i1) * nc3 2 + i2) := by
  refine ⟨⟨cellSearch_lt nc b posd 0 hnc, cellSearch_le_pos nc b posd 0 h0, ?_⟩,
    fun _ _ _ _ => rfl⟩
  intro i hi hbi
  by_contra hgt
  have := cellSearch_above nc b posd hmono 0 i (by omega) hi
  linarith

/-- Unit-spaced boundary sequence used by the C4 witness. -/
def witnessBounds (i : ℕ) : ℚ := i

/-- Witness for C4: boundaries `0, 1, 2` on a 3-cell axis, position `3/2`. -/
theorem claim_C4_cell_choice_witness :
    ((0 : ℕ) < 3 ∧ (∀ i j, i ≤ j → j < 3 → witnessBounds i ≤ witnessBounds j) ∧
      witnessBounds 0 ≤ (3 : ℚ) / 2) ∧
    ((cellSearch 3 witnessBounds ((3 : ℚ) / 2) 0 < 3 ∧
      witnessBounds (cellSearch 3 witnessBounds ((3 : ℚ) / 2) 0) ≤ (3 : ℚ) / 2 ∧
      (∀ i, i < 3 → witnessBounds i ≤ (3 : ℚ) / 2 →
        i ≤ cellSearch 3 witnessBounds ((3 : ℚ) / 2) 0)) ∧
     (∀ (nc3 : ℕ → ℕ) (i0 i1 i2 : ℕ),
       dd_index nc3 (i0, i1, i2) = (i0 * nc3 1 + i1) * nc3 2 + i2)) :=
  ⟨⟨by norm_num, fun i j hij _ => by
      unfold witnessBounds
      exact_mod_cast hij,
    by
      unfold witnessBounds
      norm_num⟩,
   claim_C4_cell_choice 3 witnessBounds ((3 : ℚ) / 2) (by norm_num)
     (fun i j hij _ => by
       unfold witnessBounds
       exact_mod_cast hij)
     (by
       unfold witnessBounds
       norm_num)⟩

/-! ### Vector algebra and wrap-loop structure lemmas -/

theorem vget_vsub (a b : V3) (d : ℕ) : vget (vsub a b) d = vget a d - vget b d := by
  unfold vget vsub
  split_ifs <;> rfl

theorem vget_vadd (a b : V3) (d : ℕ) : vget (vadd a b) d = vget a d + vget b d := by
  unfold vget vadd
  split_ifs <;> rfl

theorem vget_vsmul (q : ℚ) (a : V3) (d : ℕ) : vget (vsmul q a) d = q * vget a d := by
  unfold vget vsmul
  split_ifs <;> rfl

theorem vsub_vsub (p a b : V3) : vsub (vsub p a) b = vsub p (vadd a b) := by
  simp only [vsub, vadd, V3.mk.injEq]
  refine ⟨by ring, by ring, by ring⟩

theorem vsub_zero_vec (p : V3) : vsub p ⟨0, 0, 0⟩ = p := by
  simp [vsub]

theorem vsmul_zero_q (a : V3) : vsmul 0 a = ⟨0, 0, 0⟩ := by
  simp [vsmul]

/-- Uniform translation of a group state by `-t`: the common effect of `n`
wrap steps on `cg_cm` and all members. -/
def shiftSt (t : V3) (st : GroupState) : GroupState :=
  ⟨vsub st.cgcm t, st.members.map fun p => vsub p t⟩

theorem shiftSt_shiftSt (a b : V3) (st : GroupState) :
    shiftSt b (shiftSt a st) = shiftSt (vadd a b) st := by
  unfold shiftSt
  simp only [List.map_map]
  refine congrArg₂ GroupState.mk (vsub_vsub _ a b) ?_
  apply List.map_congr_left
  intro p _
  exact vsub_vsub p a b

theorem shiftSt_zero (st : GroupState) : shiftSt ⟨0, 0, 0⟩ st = st := by
  simp [shiftSt, vsub_zero_vec]

theorem wrapStepDown_noscrew (box : Mat3) (d : ℕ) (st : GroupState) :
    wrapStepDown box d false st = shiftSt (mrow box d) st := by
  simp [wrapStepDown, shiftSt]

theorem wrapStepUp_noscrew (box : Mat3) (d : ℕ) (st : GroupState) :
    wrapStepUp box d false st = shiftSt (vsmul (-1) (mrow box d)) st := by
  have hpt : ∀ p : V3, vadd p (mrow box d) = vsub p (vsmul (-1) (mrow box d)) := by
    intro p
    simp only [vadd, vsub, vsmul, V3.mk.injEq]
    refine ⟨by ring, by ring, by ring⟩
  simp only [wrapStepUp, shiftSt, Bool.false_eq_true, if_false, GroupState.mk.injEq]
  exact ⟨hpt st.cgcm, List.map_congr_left fun p _ => hpt p⟩

theorem wrapDown_shift (box : Mat3) (d : ℕ) (posd : ℚ) (st : GroupState) :
    ∃ n : ℕ, wrapDown box d false posd st
      = (posd - n * vget (mrow box d) d, shiftSt (vsmul (n : ℚ) (mrow box d)) st) := by
  refine wrapDown.induct box d false
    (fun p s => ∃ n : ℕ, wrapDown box d false p s
      = (p - n * vget (mrow box d) d, shiftSt (vsmul (n : ℚ) (mrow box d)) s)) ?_ ?_ posd st
  · intro p s h ih
    obtain ⟨n, hn⟩ := ih
    refine ⟨n + 1, ?_⟩
    rw [wrapDown, dif_pos h, hn, wrapStepDown_noscrew, shiftSt_shiftSt]
    have h1 : p - vget (mrow box d) d - (n : ℚ) * vget (mrow box d) d
        = p - ((n : ℕ) + 1 : ℚ) * vget (mrow box d) d := by ring
    have h2 : vadd (mrow box d) (vsmul (n : ℚ) (mrow box d))
        = vsmul (((n : ℕ) + 1 : ℚ)) (mrow box d) := by
      simp only [vadd, vsmul, V3.mk.injEq]
      refine ⟨by ring, by ring, by ring⟩
    rw [h1, h2]
    push_cast
    rfl
  · intro p s h
    refine ⟨0, ?_⟩
    rw [wrapDown, dif_neg h]
    simp [vsmul_zero_q, shiftSt_zero]

theorem wrapUp_shift (box : Mat3) (d : ℕ) (posd : ℚ) (st : GroupState) :
    ∃ m : ℕ, wrapUp box d false posd st
      = (posd + m * vget (mrow box d) d, shiftSt (vsmul (-(m : ℚ)) (mrow box d)) st) := by
  refine wrapUp.induct box d false
    (fun p s => ∃ m : ℕ, wrapUp box d false p s
      = (p + m * vget (mrow box d) d, shiftSt (vsmul (-(m : ℚ)) (mrow box d)) s)) ?_ ?_ posd st
  · intro p s h ih
    obtain ⟨m, hm⟩ := ih
    refine ⟨m + 1, ?_⟩
    rw [wrapUp, dif_pos h, hm, wrapStepUp_noscrew, shiftSt_shiftSt]
    have h1 : p + vget (mrow box d) d + (m : ℚ) * vget (mrow box d) d
        = p + ((m : ℕ) + 1 : ℚ) * vget (mrow box d) d := by ring
    have h2 : vadd (vsmul (-1) (mrow box d)) (vsmul (-(m : ℚ)) (mrow box d))
        = vsmul (-(((m : ℕ) + 1 : ℚ))) (mrow box d) := by
      simp only [vadd, vsmul, V3.mk.injEq]
      refine ⟨by ring, by ring, by ring⟩
    rw [h1, h2]
    push_cast
    rfl
  · intro p s h
    refine ⟨0, ?_⟩
    rw [wrapUp, dif_neg h]
    simp [vsmul_zero_q, shiftSt_zero]

theorem wrapDown_lt (box : Mat3) (d : ℕ) (bs : Bool) (posd : ℚ) (st : GroupState)
    (hb : 0 < vget (mrow box d) d) :
    (wrapDown box d bs posd st).1 < vget (mrow box d) d := by
  refine wrapDown.induct box d bs
    (fun p s => (wrapDown box d bs p s).1 < vget (mrow box d) d) ?_ ?_ posd st
  · intro p s h ih
    rw [wrapDown, dif_pos h]
    exact ih
  · intro p s h
    rw [wrapDown, dif_neg h]
    rcases Decidable.not_and_iff_or_not.mp h with hc | hc
    · exact absurd hb hc
    · exact lt_of_not_le hc

theorem wrapUp_nonneg (box : Mat3) (d : ℕ) (bs : Bool) (posd : ℚ) (st : GroupState)
    (hb : 0 < vget (mrow box d) d) :
    0 ≤ (wrapUp box d bs posd st).1 := by
  refine wrapUp.induct box d bs
    (fun p s => 0 ≤ (wrapUp box d bs p s).1) ?_ ?_ posd st
  · intro p s h ih
    rw [wrapUp, dif_pos h]
    exact ih
  · intro p s h
    rw [wrapUp, dif_neg h]
    rcases Decidable.not_and_iff_or_not.mp h with hc | hc
    · exact absurd hb hc
    · exact le_of_not_lt hc

theorem wrapUp_lt_keep (box : Mat3) (d : ℕ) (bs : Bool) (posd : ℚ) (st : GroupState)
    (hb : 0 < vget (mrow box d) d) (hlt : posd < vget (mrow box d) d) :
    (wrapUp box d bs posd st).1 < vget (mrow box d) d := by
  refine wrapUp.induct box d bs
    (fun p s => p < vget (mrow box d) d → (wrapUp box d bs p s).1 < vget (mrow box d) d)
    ?_ ?_ posd st hlt
  · intro p s h ih _
    rw [wrapUp, dif_pos h]
    exact ih (by linarith [h.2])
  · intro p s h hp
    rw [wrapUp, dif_neg h]
    exact hp

theorem wrapDown_noop (box : Mat3) (d : ℕ) (bs : Bool) (posd : ℚ) (st : GroupState)
    (h : posd < vget (mrow box d) d) :
    wrapDown box d bs posd st = (posd, st) := by
  rw [wrapDown, dif_neg]
  intro hc
  linarith [hc.2]

theorem wrapUp_noop (box : Mat3) (d : ℕ) (bs : Bool) (posd : ℚ) (st : GroupState)
    (h : 0 ≤ posd) :
    wrapUp box d bs posd st = (posd, st) := by
  rw [wrapUp, dif_neg]
  intro hc
  linarith [hc.2]

theorem processAxis_nonper (cfg : DDConfig) (box : Mat3) (tcm : ℕ → ℕ → ℚ)
    (d : ℕ) (st : GroupState) (hd : ¬ d < cfg.npbcdim) :
    processAxis cfg box tcm d st = (st, vget st.cgcm d) := by
  unfold processAxis
  rw [if_neg hd]

theorem processAxis_noop (cfg : DDConfig) (box : Mat3) (tcm : ℕ → ℕ → ℚ)
    (d : ℕ) (st : GroupState) (hd : d < cfg.npbcdim)
    (h0 : 0 ≤ posdInit cfg tcm d st.cgcm)
    (h1 : posdInit cfg tcm d st.cgcm < vget (mrow box d) d) :
    processAxis cfg box tcm d st = (st, posdInit cfg tcm d st.cgcm) := by
  simp only [processAxis, if_pos hd]
  rw [wrapDown_noop _ _ _ _ _ h1, wrapUp_noop _ _ _ _ _ h0]

theorem processAxis_spec (cfg : DDConfig) (box : Mat3) (tcm : ℕ → ℕ → ℚ)
    (d : ℕ) (st : GroupState) (hd : d < cfg.npbcdim)
    (hscrew : cfg.bScrewPBC = false) (hb : 0 < vget (mrow box d) d) :
    ∃ k : ℤ, processAxis cfg box tcm d st
      = (shiftSt (vsmul (k : ℚ) (mrow box d)) st,
         posdInit cfg tcm d st.cgcm - k * vget (mrow box d) d) ∧
      0 ≤ posdInit cfg tcm d st.cgcm - k * vget (mrow box d) d ∧
      posdInit cfg tcm d st.cgcm - k * vget (mrow box d) d < vget (mrow box d) d := by
  obtain ⟨n, hn⟩ := wrapDown_shift box d (posdInit cfg tcm d st.cgcm) st
  have hlt := wrapDown_lt box d false (posdInit cfg tcm d st.cgcm) st hb
  rw [hn] at hlt
  obtain ⟨m, hm⟩ := wrapUp_shift box d
    (posdInit cfg tcm d st.cgcm - n * vget (mrow box d) d)
    (shiftSt (vsmul (n : ℚ) (mrow box d)) st)
  have hnn := wrapUp_nonneg box d false
    (posdInit cfg tcm d st.cgcm - n * vget (mrow box d) d)
    (shiftSt (vsmul (n : ℚ) (mrow box d)) st) hb
  have hlt2 := wrapUp_lt_keep box d false
    (posdInit cfg tcm d st.cgcm - n * vget (mrow box d) d)
    (shiftSt (vsmul (n : ℚ) (mrow box d)) st) hb hlt
  rw [hm] at hnn hlt2
  refine ⟨(n : ℤ) - m, ?_, ?_, ?_⟩
  · simp only [processAxis, if_pos hd, hscrew, Bool.false_and]
    rw [hn, hm, shiftSt_shiftSt]
    have hv : vadd (vsmul (n : ℚ) (mrow box d)) (vsmul (-(m : ℚ)) (mrow box d))
        = vsmul ((((n : ℤ) - m : ℤ)) : ℚ) (mrow box d) := by
      simp only [vadd, vsmul, V3.mk.injEq]
      push_cast
      refine ⟨by ring, by ring, by ring⟩
    rw [hv]
    have hq : posdInit cfg tcm d st.cgcm - (n : ℚ) * vget (mrow box d) d
        + (m : ℚ) * vget (mrow box d) d
        = posdInit cfg tcm d st.cgcm
          - ((((n : ℤ) - m : ℤ)) : ℚ) * vget (mrow box d) d := by
      push_cast
      ring
    rw [hq]
  · have : posdInit cfg tcm d st.cgcm - (n : ℚ) * vget (mrow box d) d
        + (m : ℚ) * vget (mrow box d) d
        = posdInit cfg tcm d st.cgcm
          - ((((n : ℤ) - m : ℤ)) : ℚ) * vget (mrow box d) d := by
      push_cast
      ring
    rw [this] at hnn
    exact hnn
  · have : posdInit cfg tcm d st.cgcm - (n : ℚ) * vget (mrow box d) d
        + (m : ℚ) * vget (mrow box d) d
        = posdInit cfg tcm d st.cgcm
          - ((((n : ℤ) - m : ℤ)) : ℚ) * vget (mrow box d) d := by
      push_cast
      ring
    rw [this] at hlt2
    exact hlt2

theorem skewSum_ax2 (tcm : ℕ → ℕ → ℚ) (v : V3) : skewSum tcm 2 v = 0 := by
  simp [skewSum, List.range_succ, List.range_zero]

theorem skewSum_ax1 (tcm : ℕ → ℕ → ℚ) (v : V3) :
    skewSum tcm 1 v = vget v 2 * tcm 2 1 := by
  simp [skewSum, List.range_succ, List.range_zero]

theorem skewSum_ax0 (tcm : ℕ → ℕ → ℚ) (v : V3) :
    skewSum tcm 0 v = vget v 1 * tcm 1 0 + vget v 2 * tcm 2 0 := by
  simp [skewSum, List.range_succ, List.range_zero]

theorem posdInit_ax2 (cfg : DDConfig) (tcm : ℕ → ℕ → ℚ) (v : V3) :
    posdInit cfg tcm 2 v = vget v 2 := by
  unfold posdInit
  split_ifs with h
  · rw [skewSum_ax2]
    ring
  · rfl

theorem posdInit_ax1 (cfg : DDConfig) (tcm : ℕ → ℕ → ℚ) (v : V3) :
    posdInit cfg tcm 1 v = vget v 1
      + (if cfg.tricDir 1 ∧ 1 < cfg.nc 1 then vget v 2 * tcm 2 1 else 0) := by
  unfold posdInit
  split_ifs with h
  · rw [skewSum_ax1]
  · ring

theorem posdInit_ax0 (cfg : DDConfig) (tcm : ℕ → ℕ → ℚ) (v : V3) :
    posdInit cfg tcm 0 v = vget v 0
      + (if cfg.tricDir 0 ∧ 1 < cfg.nc 0 then
          vget v 1 * tcm 1 0 + vget v 2 * tcm 2 0 else 0) := by
  unfold posdInit
  split_ifs with h
  · rw [skewSum_ax0]
  · ring

/-! ### C5: per-axis wrapping -/

/-- Concrete geometry for the C5 counterexample: orthorhombic box of side 4,
2×2×2 grid, all axes periodic, no screw, no triclinic correction. -/
def cfgC5 : DDConfig := ⟨fun _ => 2, 3, false, fun _ => false, fun _ i => 2 * i⟩

/-- Orthorhombic box of side 4. -/
def boxC5 : Mat3 := ⟨⟨4, 0, 0⟩, ⟨0, 4, 0⟩, ⟨0, 0, 4⟩⟩

theorem computeCgCm_C5 :
    computeCgCm [⟨-1, 1, 1⟩, ⟨3, 1, 1⟩] = (⟨1, 1, 1⟩ : V3) := by
  norm_num [computeCgCm, vsum, vadd, vsmul, V3.mk.injEq]

/-- At this input no wrap fires (the representative is already in the box), so
the member at `x = -1` is returned unchanged. -/
theorem canonPositions_C5 :
    canonPositions cfgC5 boxC5 (fun _ _ => 0) [⟨-1, 1, 1⟩, ⟨3, 1, 1⟩]
      = [⟨-1, 1, 1⟩, ⟨3, 1, 1⟩] := by
  have e2 : processAxis cfgC5 boxC5 (fun _ _ => 0) 2
      ⟨⟨1, 1, 1⟩, [⟨-1, 1, 1⟩, ⟨3, 1, 1⟩]⟩
      = (⟨⟨1, 1, 1⟩, [⟨-1, 1, 1⟩, ⟨3, 1, 1⟩]⟩, 1) := by
    rw [processAxis_noop cfgC5 boxC5 (fun _ _ => 0) 2 _ (by norm_num [cfgC5])
      (by rw [posdInit_ax2]; norm_num [vget])
      (by rw [posdInit_ax2]; norm_num [vget, boxC5, mrow])]
    rw [posdInit_ax2]
    norm_num [vget]
  have e1 : processAxis cfgC5 boxC5 (fun _ _ => 0) 1
      ⟨⟨1, 1, 1⟩, [⟨-1, 1, 1⟩, ⟨3, 1, 1⟩]⟩
      = (⟨⟨1, 1, 1⟩, [⟨-1, 1, 1⟩, ⟨3, 1, 1⟩]⟩, 1) := by
    rw [processAxis_noop cfgC5 boxC5 (fun _ _ => 0) 1 _ (by norm_num [cfgC5])
      (by rw [posdInit_ax1]; norm_num [vget, cfgC5])
      (by rw [posdInit_ax1]; norm_num [vget, cfgC5, boxC5, mrow])]
    rw [posdInit_ax1]
    norm_num [cfgC5, vget]
  have e0 : processAxis cfgC5 boxC5 (fun _ _ => 0) 0
      ⟨⟨1, 1, 1⟩, [⟨-1, 1, 1⟩, ⟨3, 1, 1⟩]⟩
      = (⟨⟨1, 1, 1⟩, [⟨-1, 1, 1⟩, ⟨3, 1, 1⟩]⟩, 1) := by
    rw [processAxis_noop cfgC5 boxC5 (fun _ _ => 0) 0 _ (by norm_num [cfgC5])
      (by rw [posdInit_ax0]; norm_num [vget, cfgC5])
      (by rw [posdInit_ax0]; norm_num [vget, cfgC5, boxC5, mrow])]
    rw [posdInit_ax0]
    norm_num [cfgC5, vget]
  unfold canonPositions assignGroup
  simp only [computeCgCm_C5, e2, e1, e0]

/-- **C5, counterexample.**  The claim says wrapping moves every member atom's
position into the primary range `[0, boxLength)`.  For the group with members
at `x = -1` and `x = 3` (mean `x = 1`, already in the box) no wrap fires and
the member at `x = -1` stays outside the primary range: members are shifted
with the group, not wrapped individually. -/
theorem claim_C5_counterexample :
    ¬ (∀ p ∈ canonPositions cfgC5 boxC5 (fun _ _ => 0) [⟨-1, 1, 1⟩, ⟨3, 1, 1⟩],
        0 ≤ vget p 0 ∧ vget p 0 < vget (mrow boxC5 0) 0) := by
  rw [canonPositions_C5]
  intro hall
  have := (hall ⟨-1, 1, 1⟩ (by simp)).1
  norm_num [vget] at this

/-- **C5, amended.**  For every periodic axis (the axes are processed from
last to first in `assignGroup`), with screw boundaries off: the triclinic skew
contribution from higher axes is added to the representative coordinate
(`posdInit`) before wrapping; wrapping puts that representative coordinate
into the primary range `[0, boxLength)` by subtracting an integer multiple `k`
of the box length, and shifts the group reference and every member atom's
position by that same multiple `k` of the axis box vector (members are not
individually wrapped into the primary range). -/
theorem claim_C5_amended (cfg : DDConfig) (box : Mat3) (tcm : ℕ → ℕ → ℚ)
    (d : ℕ) (st : GroupState) (hd : d < cfg.npbcdim)
    (hscrew : cfg.bScrewPBC = false) (hb : 0 < vget (mrow box d) d) :
    ∃ k : ℤ,
      (processAxis cfg box tcm d st).2
        = posdInit cfg tcm d st.cgcm - k * vget (mrow box d) d ∧
      0 ≤ (processAxis cfg box tcm d st).2 ∧
      (processAxis cfg box tcm d st).2 < vget (mrow box d) d ∧
      (processAxis cfg box tcm d st).1.cgcm
        = vsub st.cgcm (vsmul (k : ℚ) (mrow box d)) ∧
      (processAxis cfg box tcm d st).1.members
        = st.members.map (fun p => vsub p (vsmul (k : ℚ) (mrow box d))) := by
  obtain ⟨k, heq, h0, h1⟩ := processAxis_spec cfg box tcm d st hd hscrew hb
  exact ⟨k, by rw [heq], by rw [heq]; exact h0, by rw [heq]; exact h1,
    by rw [heq]; rfl, by rw [heq]; rfl⟩

/-- Witness for the amended C5: axis 0 of the C5 geometry, a group whose
representative sits at `x = 5` (one box length too far): `k = 1`. -/
theorem claim_C5_amended_witness :
    ((0 : ℕ) < cfgC5.npbcdim ∧ cfgC5.bScrewPBC = false ∧
      (0 : ℚ) < vget (mrow boxC5 0) 0) ∧
    (∃ k : ℤ,
      (processAxis cfgC5 boxC5 (fun _ _ => 0) 0
        ⟨⟨5, 1, 1⟩, [⟨4, 1, 1⟩, ⟨6, 1, 1⟩]⟩).2
        = posdInit cfgC5 (fun _ _ => 0) 0 (⟨5, 1, 1⟩ : V3)
          - k * vget (mrow boxC5 0) 0 ∧
      0 ≤ (processAxis cfgC5 boxC5 (fun _ _ => 0) 0
        ⟨⟨5, 1, 1⟩, [⟨4, 1, 1⟩, ⟨6, 1, 1⟩]⟩).2 ∧
      (processAxis cfgC5 boxC5 (fun _ _ => 0) 0
        ⟨⟨5, 1, 1⟩, [⟨4, 1, 1⟩, ⟨6, 1, 1⟩]⟩).2 < vget (mrow boxC5 0) 0 ∧
      (processAxis cfgC5 boxC5 (fun _ _ => 0) 0
        ⟨⟨5, 1, 1⟩, [⟨4, 1, 1⟩, ⟨6, 1, 1⟩]⟩).1.cgcm
        = vsub (⟨5, 1, 1⟩ : V3) (vsmul (k : ℚ) (mrow boxC5 0)) ∧
      (processAxis cfgC5 boxC5 (fun _ _ => 0) 0
        ⟨⟨5, 1, 1⟩, [⟨4, 1, 1⟩, ⟨6, 1, 1⟩]⟩).1.members
        = [⟨4, 1, 1⟩, ⟨6, 1, 1⟩].map
            (fun p => vsub p (vsmul (k : ℚ) (mrow boxC5 0)))) :=
  ⟨⟨by norm_num [cfgC5], rfl, by norm_num [boxC5, mrow, vget]⟩,
   claim_C5_amended cfgC5 boxC5 (fun _ _ => 0) 0
     ⟨⟨5, 1, 1⟩, [⟨4, 1, 1⟩, ⟨6, 1, 1⟩]⟩
     (by norm_num [cfgC5]) rfl (by norm_num [boxC5, mrow, vget])⟩

/-! ### Structure lemmas used by the idempotence and frame claims -/

theorem wrapDown_mlen (box : Mat3) (d : ℕ) (bs : Bool) (p : ℚ) (st : GroupState) :
    (wrapDown box d bs p st).2.members.length = st.members.length := by
  refine wrapDown.induct box d bs
    (fun p s => (wrapDown box d bs p s).2.members.length = s.members.length) ?_ ?_ p st
  · intro p s h ih
    rw [wrapDown, dif_pos h, ih]
    simp [wrapStepDown]
  · intro p s h
    rw [wrapDown, dif_neg h]

theorem wrapUp_mlen (box : Mat3) (d : ℕ) (bs : Bool) (p : ℚ) (st : GroupState) :
    (wrapUp box d bs p st).2.members.length = st.members.length := by
  refine wrapUp.induct box d bs
    (fun p s => (wrapUp box d bs p s).2.members.length = s.members.length) ?_ ?_ p st
  · intro p s h ih
    rw [wrapUp, dif_pos h, ih]
    simp [wrapStepUp]
  · intro p s h
    rw [wrapUp, dif_neg h]

theorem processAxis_mlen (cfg : DDConfig) (box : Mat3) (tcm : ℕ → ℕ → ℚ)
    (d : ℕ) (st : GroupState) :
    (processAxis cfg box tcm d st).1.members.length = st.members.length := by
  unfold processAxis
  split
  · simp only []
    rw [wrapUp_mlen, wrapDown_mlen]
  · rfl

theorem assignGroup_mlen (cfg : DDConfig) (box : Mat3) (tcm : ℕ → ℕ → ℚ)
    (members : List V3) :
    (assignGroup cfg box tcm members).1.length = members.length := by
  unfold assignGroup
  simp only []
  rw [processAxis_mlen, processAxis_mlen, processAxis_mlen]

theorem canonPositions_length (cfg : DDConfig) (box : Mat3) (tcm : ℕ → ℕ → ℚ)
    (members : List V3) :
    (canonPositions cfg box tcm members).length = members.length :=
  assignGroup_mlen cfg box tcm members

theorem canonPositions_nil (cfg : DDConfig) (box : Mat3) (tcm : ℕ → ℕ → ℚ) :
    canonPositions cfg box tcm [] = [] := by
  have h := canonPositions_length cfg box tcm []
  exact List.eq_nil_of_length_eq_zero h

theorem vsum_acc (l : List V3) (acc : V3) :
    l.foldl vadd acc = vadd acc (vsum l) := by
  induction l generalizing acc with
  | nil => simp [vsum, vadd]
  | cons a t ih =>
    show (a :: t).foldl vadd acc = vadd acc (vsum (a :: t))
    rw [List.foldl_cons, ih (vadd acc a)]
    have hr : vsum (a :: t) = vadd (vadd ⟨0, 0, 0⟩ a) (vsum t) := by
      show (a :: t).foldl vadd ⟨0, 0, 0⟩ = _
      rw [List.foldl_cons, ih (vadd ⟨0, 0, 0⟩ a)]
    rw [hr]
    simp only [vadd, V3.mk.injEq]
    refine ⟨by ring, by ring, by ring⟩

theorem vsum_cons (a : V3) (l : List V3) : vsum (a :: l) = vadd a (vsum l) := by
  show (a :: l).foldl vadd ⟨0, 0, 0⟩ = _
  rw [List.foldl_cons, vsum_acc]
  simp only [vadd, V3.mk.injEq]
  refine ⟨by ring, by ring, by ring⟩

theorem vsum_translate (t : V3) (l : List V3) :
    vsum (l.map (fun p => vsub p t)) = vsub (vsum l) (vsmul (l.length : ℚ) t) := by
  induction l with
  | nil =>
    show vsum [] = vsub (vsum []) (vsmul ((0 : ℕ) : ℚ) t)
    simp only [vsum, List.foldl_nil, vsub, vsmul, V3.mk.injEq]
    push_cast
    refine ⟨by ring, by ring, by ring⟩
  | cons a l ih =>
    rw [List.map_cons, vsum_cons, ih, vsum_cons]
    simp only [vsub, vsmul, vadd, V3.mk.injEq, List.length_cons]
    push_cast
    refine ⟨by ring, by ring, by ring⟩

theorem computeCgCm_translate (t : V3) (members : List V3) (h : members ≠ []) :
    computeCgCm (members.map (fun p => vsub p t)) = vsub (computeCgCm members) t := by
  unfold computeCgCm
  rw [List.length_map]
  by_cases h1 : members.length = 1
  · rw [if_pos h1, if_pos h1]
    obtain ⟨a, ha⟩ := List.length_eq_one.mp h1
    subst ha
    rfl
  · rw [if_neg h1, if_neg h1, vsum_translate]
    have hn : (members.length : ℚ) ≠ 0 := by
      have hne : members.length ≠ 0 := fun h0 => h (List.eq_nil_of_length_eq_zero h0)
      exact_mod_cast hne
    simp only [vsub, vsmul, V3.mk.injEq]
    refine ⟨?_, ?_, ?_⟩ <;> field_simp <;> ring

/-- Per-axis characterization combining the periodic and non-periodic cases:
the axis shifts the whole group state by one integer multiple of the axis box
vector (zero for a non-periodic axis) and yields the final `pos_d`. -/
theorem processAxis_cases (cfg : DDConfig) (box : Mat3) (tcm : ℕ → ℕ → ℚ)
    (d : ℕ) (st : GroupState) (hscrew : cfg.bScrewPBC = false)
    (hpos : d < cfg.npbcdim → 0 < vget (mrow box d) d) :
    ∃ (k : ℤ) (p : ℚ),
      processAxis cfg box tcm d st = (shiftSt (vsmul (k : ℚ) (mrow box d)) st, p) ∧
      ((d < cfg.npbcdim ∧ p = posdInit cfg tcm d st.cgcm - k * vget (mrow box d) d ∧
        0 ≤ p ∧ p < vget (mrow box d) d) ∨
       (¬ d < cfg.npbcdim ∧ k = 0 ∧ p = vget st.cgcm d)) := by
  by_cases hd : d < cfg.npbcdim
  · obtain ⟨k, heq, h0, h1⟩ := processAxis_spec cfg box tcm d st hd hscrew (hpos hd)
    exact ⟨k, _, heq, Or.inl ⟨hd, rfl, h0, h1⟩⟩
  · refine ⟨0, vget st.cgcm d, ?_, Or.inr ⟨hd, rfl, rfl⟩⟩
    rw [processAxis_nonper cfg box tcm d st hd]
    rw [show ((0 : ℤ) : ℚ) = 0 from rfl, vsmul_zero_q, shiftSt_zero]

/-- **C6, amended.**  With screw boundaries off (plus the standing GROMACS
box conventions: positive diagonal on periodic axes, lower-triangular box),
the per-group canonicalization is idempotent: applying it twice returns the
same member positions and the same destination cell indices as applying it
once.  (With screw boundaries on, the claim fails; see the counterexample.) -/
theorem claim_C6_amended (cfg : DDConfig) (box : Mat3) (tcm : ℕ → ℕ → ℚ)
    (members : List V3)
    (hscrew : cfg.bScrewPBC = false)
    (hpos : ∀ d, d < cfg.npbcdim → 0 < vget (mrow box d) d)
    (h01 : vget (mrow box 0) 1 = 0) (h02 : vget (mrow box 0) 2 = 0)
    (h12 : vget (mrow box 1) 2 = 0) :
    canonPositions cfg box tcm (canonPositions cfg box tcm members)
      = canonPositions cfg box tcm members ∧
    (assignGroup cfg box tcm (canonPositions cfg box tcm members)).2
      = (assignGroup cfg box tcm members).2 := by
  by_cases hmem : members = []
  · subst hmem
    rw [canonPositions_nil]
    exact ⟨canonPositions_nil cfg box tcm, rfl⟩
  set c0 := computeCgCm members with hc0
  set st0 : GroupState := ⟨c0, members⟩ with hst0
  obtain ⟨k2, p2, e2, case2⟩ := processAxis_cases cfg box tcm 2 st0 hscrew (hpos 2)
  set w2 : V3 := vsmul ((k2 : ℤ) : ℚ) (mrow box 2) with hw2
  obtain ⟨k1, p1, e1, case1⟩ :=
    processAxis_cases cfg box tcm 1 (shiftSt w2 st0) hscrew (hpos 1)
  set w1 : V3 := vsmul ((k1 : ℤ) : ℚ) (mrow box 1) with hw1
  obtain ⟨k0, p0, e0, case0⟩ :=
    processAxis_cases cfg box tcm 0 (shiftSt w1 (shiftSt w2 st0)) hscrew (hpos 0)
  set w0 : V3 := vsmul ((k0 : ℤ) : ℚ) (mrow box 0) with hw0
  set W : V3 := vadd (vadd w2 w1) w0 with hW
  have hstF : shiftSt w0 (shiftSt w1 (shiftSt w2 st0)) = shiftSt W st0 := by
    rw [shiftSt_shiftSt, shiftSt_shiftSt]
    have : vadd w2 (vadd w1 w0) = W := by
      rw [hW]
      simp only [vadd, V3.mk.injEq]
      refine ⟨by ring, by ring, by ring⟩
    rw [this]
  have hassign1 : assignGroup cfg box tcm members
      = ((shiftSt W st0).members,
         (cellSearch (cfg.nc 0) (cfg.bounds 0) p0 0,
          cellSearch (cfg.nc 1) (cfg.bounds 1) p1 0,
          cellSearch (cfg.nc 2) (cfg.bounds 2) p2 0)) := by
    unfold assignGroup
    simp only [← hc0, ← hst0, e2, e1, e0, hstF]
  have hcanon1 : canonPositions cfg box tcm members
      = members.map (fun p => vsub p W) := by
    unfold canonPositions
    rw [hassign1]
    rfl
  have hmean : computeCgCm (members.map (fun p => vsub p W)) = vsub c0 W := by
    rw [hc0]
    exact computeCgCm_translate W members hmem
  -- components of the accumulated shift
  have hW2 : vget W 2 = (k2 : ℚ) * vget (mrow box 2) 2 := by
    rw [hW, vget_vadd, vget_vadd, hw2, hw1, hw0, vget_vsmul, vget_vsmul, vget_vsmul,
      h12, h02]
    ring
  have hW1 : vget W 1
      = (k2 : ℚ) * vget (mrow box 2) 1 + (k1 : ℚ) * vget (mrow box 1) 1 := by
    rw [hW, vget_vadd, vget_vadd, hw2, hw1, hw0, vget_vsmul, vget_vsmul, vget_vsmul,
      h01]
    ring
  have hW0 : vget W 0
      = (k2 : ℚ) * vget (mrow box 2) 0 + (k1 : ℚ) * vget (mrow box 1) 0
        + (k0 : ℚ) * vget (mrow box 0) 0 := by
    rw [hW, vget_vadd, vget_vadd, hw2, hw1, hw0, vget_vsmul, vget_vsmul, vget_vsmul]
  -- pass 2, axis 2
  have g2 : processAxis cfg box tcm 2 (shiftSt W st0) = (shiftSt W st0, p2) := by
    rcases case2 with ⟨hd, hp, hge, hlt⟩ | ⟨hd, hk, hp⟩
    · have hpi : posdInit cfg tcm 2 (shiftSt W st0).cgcm = p2 := by
        show posdInit cfg tcm 2 (vsub c0 W) = p2
        rw [posdInit_ax2, vget_vsub, hW2, hp, posdInit_ax2]
      rw [processAxis_noop cfg box tcm 2 _ hd (by rw [hpi]; exact hge)
        (by rw [hpi]; exact hlt), hpi]
    · rw [processAxis_nonper cfg box tcm 2 _ hd, hp]
      have : vget (shiftSt W st0).cgcm 2 = vget st0.cgcm 2 := by
        show vget (vsub c0 W) 2 = vget c0 2
        rw [vget_vsub, hW2, hk]
        push_cast
        ring
      rw [this]
  -- pass 2, axis 1
  have g1 : processAxis cfg box tcm 1 (shiftSt W st0) = (shiftSt W st0, p1) := by
    have hlhs : posdInit cfg tcm 1 (shiftSt W st0).cgcm
        = vget c0 1 - ((k2 : ℚ) * vget (mrow box 2) 1 + (k1 : ℚ) * vget (mrow box 1) 1)
          + (if cfg.tricDir 1 ∧ 1 < cfg.nc 1 then
              (vget c0 2 - (k2 : ℚ) * vget (mrow box 2) 2) * tcm 2 1 else 0) := by
      show posdInit cfg tcm 1 (vsub c0 W) = _
      rw [posdInit_ax1, vget_vsub, vget_vsub, hW1, hW2]
    have hin1 : posdInit cfg tcm 1 (shiftSt w2 st0).cgcm
        = vget c0 1 - (k2 : ℚ) * vget (mrow box 2) 1
          + (if cfg.tricDir 1 ∧ 1 < cfg.nc 1 then
              (vget c0 2 - (k2 : ℚ) * vget (mrow box 2) 2) * tcm 2 1 else 0) := by
      show posdInit cfg tcm 1 (vsub c0 w2) = _
      rw [posdInit_ax1, vget_vsub, vget_vsub, hw2, vget_vsmul, vget_vsmul]
    rcases case1 with ⟨hd, hp, hge, hlt⟩ | ⟨hd, hk, hp⟩
    · have hpi : posdInit cfg tcm 1 (shiftSt W st0).cgcm = p1 := by
        rw [hlhs, hp, hin1]
        ring
      rw [processAxis_noop cfg box tcm 1 _ hd (by rw [hpi]; exact hge)
        (by rw [hpi]; exact hlt), hpi]
    · rw [processAxis_nonper cfg box tcm 1 _ hd, hp]
      have : vget (shiftSt W st0).cgcm 1 = vget (shiftSt w2 st0).cgcm 1 := by
        show vget (vsub c0 W) 1 = vget (vsub c0 w2) 1
        rw [vget_vsub, vget_vsub, hW1, hw2, vget_vsmul, hk]
        push_cast
        ring
      rw [this]
  -- pass 2, axis 0
  have g0 : processAxis cfg box tcm 0 (shiftSt W st0) = (shiftSt W st0, p0) := by
    have hlhs : posdInit cfg tcm 0 (shiftSt W st0).cgcm
        = vget c0 0 - ((k2 : ℚ) * vget (mrow box 2) 0 + (k1 : ℚ) * vget (mrow box 1) 0
            + (k0 : ℚ) * vget (mrow box 0) 0)
          + (if cfg.tricDir 0 ∧ 1 < cfg.nc 0 then
              (vget c0 1 - ((k2 : ℚ) * vget (mrow box 2) 1
                + (k1 : ℚ) * vget (mrow box 1) 1)) * tcm 1 0
              + (vget c0 2 - (k2 : ℚ) * vget (mrow box 2) 2) * tcm 2 0 else 0) := by
      show posdInit cfg tcm 0 (vsub c0 W) = _
      rw [posdInit_ax0, vget_vsub, vget_vsub, vget_vsub, hW0, hW1, hW2]
    have hin0 : posdInit cfg tcm 0 (shiftSt w1 (shiftSt w2 st0)).cgcm
        = vget c0 0 - ((k2 : ℚ) * vget (mrow box 2) 0 + (k1 : ℚ) * vget (mrow box 1) 0)
          + (if cfg.tricDir 0 ∧ 1 < cfg.nc 0 then
              (vget c0 1 - ((k2 : ℚ) * vget (mrow box 2) 1
                + (k1 : ℚ) * vget (mrow box 1) 1)) * tcm 1 0
              + (vget c0 2 - (k2 : ℚ) * vget (mrow box 2) 2) * tcm 2 0 else 0) := by
      have hmm : (shiftSt w1 (shiftSt w2 st0)).cgcm = vsub c0 (vadd w2 w1) := by
        rw [shiftSt_shiftSt]
        rfl
      rw [hmm, posdInit_ax0, vget_vsub, vget_vsub, vget_vsub,
        vget_vadd, vget_vadd, vget_vadd, hw2, hw1,
        vget_vsmul, vget_vsmul, vget_vsmul, vget_vsmul, vget_vsmul, vget_vsmul,
        h12]
      ring_nf
    rcases case0 with ⟨hd, hp, hge, hlt⟩ | ⟨hd, hk, hp⟩
    · have hpi : posdInit cfg tcm 0 (shiftSt W st0).cgcm = p0 := by
        rw [hlhs, hp, hin0]
        ring
      rw [processAxis_noop cfg box tcm 0 _ hd (by rw [hpi]; exact hge)
        (by rw [hpi]; exact hlt), hpi]
    · rw [processAxis_nonper cfg box tcm 0 _ hd, hp]
      have : vget (shiftSt W st0).cgcm 0 = vget (shiftSt w1 (shiftSt w2 st0)).cgcm 0 := by
        have hmm : (shiftSt w1 (shiftSt w2 st0)).cgcm = vsub c0 (vadd w2 w1) := by
          rw [shiftSt_shiftSt]
          rfl
        rw [hmm]
        show vget (vsub c0 W) 0 = vget (vsub c0 (vadd w2 w1)) 0
        rw [vget_vsub, vget_vsub, hW0, vget_vadd, hw2, hw1, vget_vsmul, vget_vsmul, hk]
        push_cast
        ring
      rw [this]
  -- assemble the second pass
  have hassign2 : assignGroup cfg box tcm (members.map (fun p => vsub p W))
      = ((shiftSt W st0).members,
         (cellSearch (cfg.nc 0) (cfg.bounds 0) p0 0,
          cellSearch (cfg.nc 1) (cfg.bounds 1) p1 0,
          cellSearch (cfg.nc 2) (cfg.bounds 2) p2 0)) := by
    have hst0' : (⟨computeCgCm (members.map (fun p => vsub p W)),
        members.map (fun p => vsub p W)⟩ : GroupState) = shiftSt W st0 := by
      rw [hmean]
      rfl
    unfold assignGroup
    simp only [hst0', g2, g1, g0]
  constructor
  · rw [hcanon1]
    unfold canonPositions
    rw [hassign2]
    rfl
  · rw [hcanon1, hassign2, hassign1]

theorem wrapDown_one (box : Mat3) (d : ℕ) (bs : Bool) (posd : ℚ) (st : GroupState)
    (hb : 0 < vget (mrow box d) d) (hge : vget (mrow box d) d ≤ posd)
    (h2 : posd - vget (mrow box d) d < vget (mrow box d) d) :
    wrapDown box d bs posd st = (posd - vget (mrow box d) d, wrapStepDown box d bs st) := by
  rw [wrapDown, dif_pos ⟨hb, hge⟩, wrapDown_noop _ _ _ _ _ h2]

theorem wrapUp_one (box : Mat3) (d : ℕ) (bs : Bool) (posd : ℚ) (st : GroupState)
    (hb : 0 < vget (mrow box d) d) (hneg : posd < 0)
    (hnn : 0 ≤ posd + vget (mrow box d) d) :
    wrapUp box d bs posd st = (posd + vget (mrow box d) d, wrapStepUp box d bs st) := by
  rw [wrapUp, dif_pos ⟨hb, hneg⟩, wrapUp_noop _ _ _ _ _ hnn]

/-- Evaluation helper: a periodic axis is the composition of the two wrap
loops on `posdInit`. -/
theorem processAxis_eval (cfg : DDConfig) (box : Mat3) (tcm : ℕ → ℕ → ℚ)
    (d : ℕ) (st : GroupState) (hd : d < cfg.npbcdim)
    (p1v : ℚ) (st1 : GroupState)
    (hwd : wrapDown box d (cfg.bScrewPBC && d == 0) (posdInit cfg tcm d st.cgcm) st
      = (p1v, st1))
    (p2v : ℚ) (st2 : GroupState)
    (hwu : wrapUp box d (cfg.bScrewPBC && d == 0) p1v st1 = (p2v, st2)) :
    processAxis cfg box tcm d st = (st2, p2v) := by
  simp only [processAxis, if_pos hd, hwd, hwu]

/-- Concrete geometry for the C6 counterexample: screw periodic boundaries
(`dd->bScrewPBC`), box of side 4, single cell per axis. -/
def cfgScrew : DDConfig := ⟨fun _ => 1, 3, true, fun _ => false, fun _ _ => 0⟩

theorem computeCgCm_single (v : V3) : computeCgCm [v] = v := rfl

theorem screw_pass1 :
    canonPositions cfgScrew boxC5 (fun _ _ => 0) [⟨-1, 0, 0⟩] = [⟨3, 4, 4⟩] := by
  have hp2 : posdInit cfgScrew (fun _ _ => 0) 2 (⟨-1, 0, 0⟩ : V3) = 0 := by
    rw [posdInit_ax2]
    rfl
  have hp1 : posdInit cfgScrew (fun _ _ => 0) 1 (⟨-1, 0, 0⟩ : V3) = 0 := by
    rw [posdInit_ax1]
    norm_num [cfgScrew, vget]
  have hp0 : posdInit cfgScrew (fun _ _ => 0) 0 (⟨-1, 0, 0⟩ : V3) = -1 := by
    rw [posdInit_ax0]
    norm_num [cfgScrew, vget]
  have e2 : processAxis cfgScrew boxC5 (fun _ _ => 0) 2 ⟨⟨-1, 0, 0⟩, [⟨-1, 0, 0⟩]⟩
      = (⟨⟨-1, 0, 0⟩, [⟨-1, 0, 0⟩]⟩, 0) := by
    rw [processAxis_noop cfgScrew boxC5 (fun _ _ => 0) 2 _ (by norm_num [cfgScrew])
      (by rw [hp2]) (by rw [hp2]; norm_num [boxC5, mrow, vget]), hp2]
  have e1 : processAxis cfgScrew boxC5 (fun _ _ => 0) 1 ⟨⟨-1, 0, 0⟩, [⟨-1, 0, 0⟩]⟩
      = (⟨⟨-1, 0, 0⟩, [⟨-1, 0, 0⟩]⟩, 0) := by
    rw [processAxis_noop cfgScrew boxC5 (fun _ _ => 0) 1 _ (by norm_num [cfgScrew])
      (by rw [hp1]) (by rw [hp1]; norm_num [boxC5, mrow, vget]), hp1]
  have e0 : processAxis cfgScrew boxC5 (fun _ _ => 0) 0 ⟨⟨-1, 0, 0⟩, [⟨-1, 0, 0⟩]⟩
      = (⟨⟨3, 4, 4⟩, [⟨3, 4, 4⟩]⟩, 3) := by
    refine processAxis_eval cfgScrew boxC5 (fun _ _ => 0) 0 _ (by norm_num [cfgScrew])
      (posdInit cfgScrew (fun _ _ => 0) 0 (⟨-1, 0, 0⟩ : V3))
      ⟨⟨-1, 0, 0⟩, [⟨-1, 0, 0⟩]⟩
      (wrapDown_noop _ _ _ _ _ (by rw [hp0]; norm_num [boxC5, mrow, vget])) 3
      ⟨⟨3, 4, 4⟩, [⟨3, 4, 4⟩]⟩ ?_
    rw [hp0, wrapUp_one _ _ _ _ _ (by norm_num [boxC5, mrow, vget]) (by norm_num)
      (by norm_num [boxC5, mrow, vget])]
    norm_num [cfgScrew, wrapStepUp, screwFlip, vadd, vget, mrow, boxC5, Prod.ext_iff,
      V3.mk.injEq]
  unfold canonPositions assignGroup
  simp only [computeCgCm_single, e2, e1, e0]

theorem screw_pass2 :
    canonPositions cfgScrew boxC5 (fun _ _ => 0) [⟨3, 4, 4⟩] = [⟨3, 0, 0⟩] := by
  have hp2 : posdInit cfgScrew (fun _ _ => 0) 2 (⟨3, 4, 4⟩ : V3) = 4 := by
    rw [posdInit_ax2]
    rfl
  have hp1 : posdInit cfgScrew (fun _ _ => 0) 1 (⟨3, 4, 0⟩ : V3) = 4 := by
    rw [posdInit_ax1]
    norm_num [cfgScrew, vget]
  have hp0 : posdInit cfgScrew (fun _ _ => 0) 0 (⟨3, 0, 0⟩ : V3) = 3 := by
    rw [posdInit_ax0]
    norm_num [cfgScrew, vget]
  have f2 : processAxis cfgScrew boxC5 (fun _ _ => 0) 2 ⟨⟨3, 4, 4⟩, [⟨3, 4, 4⟩]⟩
      = (⟨⟨3, 4, 0⟩, [⟨3, 4, 0⟩]⟩, 0) := by
    refine processAxis_eval cfgScrew boxC5 (fun _ _ => 0) 2 _ (by norm_num [cfgScrew])
      0 ⟨⟨3, 4, 0⟩, [⟨3, 4, 0⟩]⟩ ?_ 0 ⟨⟨3, 4, 0⟩, [⟨3, 4, 0⟩]⟩
      (wrapUp_noop _ _ _ _ _ (by norm_num))
    rw [hp2, wrapDown_one _ _ _ _ _ (by norm_num [boxC5, mrow, vget])
      (by norm_num [boxC5, mrow, vget]) (by norm_num [boxC5, mrow, vget])]
    norm_num [cfgScrew, wrapStepDown, vsub, vget, mrow, boxC5, Prod.ext_iff,
      V3.mk.injEq]
  have f1 : processAxis cfgScrew boxC5 (fun _ _ => 0) 1 ⟨⟨3, 4, 0⟩, [⟨3, 4, 0⟩]⟩
      = (⟨⟨3, 0, 0⟩, [⟨3, 0, 0⟩]⟩, 0) := by
    refine processAxis_eval cfgScrew boxC5 (fun _ _ => 0) 1 _ (by norm_num [cfgScrew])
      0 ⟨⟨3, 0, 0⟩, [⟨3, 0, 0⟩]⟩ ?_ 0 ⟨⟨3, 0, 0⟩, [⟨3, 0, 0⟩]⟩
      (wrapUp_noop _ _ _ _ _ (by norm_num))
    rw [hp1, wrapDown_one _ _ _ _ _ (by norm_num [boxC5, mrow, vget])
      (by norm_num [boxC5, mrow, vget]) (by norm_num [boxC5, mrow, vget])]
    norm_num [cfgScrew, wrapStepDown, vsub, vget, mrow, boxC5, Prod.ext_iff,
      V3.mk.injEq]
  have f0 : processAxis cfgScrew boxC5 (fun _ _ => 0) 0 ⟨⟨3, 0, 0⟩, [⟨3, 0, 0⟩]⟩
      = (⟨⟨3, 0, 0⟩, [⟨3, 0, 0⟩]⟩, 3) := by
    rw [processAxis_noop cfgScrew boxC5 (fun _ _ => 0) 0 _ (by norm_num [cfgScrew])
      (by rw [hp0]; norm_num) (by rw [hp0]; norm_num [boxC5, mrow, vget]), hp0]
  unfold canonPositions assignGroup
  simp only [computeCgCm_single, f2, f1, f0]

/-- **C6, counterexample.**  With screw periodic boundaries the
canonicalization is not idempotent: the single atom at `(-1, 0, 0)` in a box
of side 4 canonicalizes to `(3, 4, 4)` (one upward wrap on x reflects y and z
onto the box boundary), and canonicalizing again wraps y and z, giving
`(3, 0, 0)`. -/
theorem claim_C6_counterexample :
    canonPositions cfgScrew boxC5 (fun _ _ => 0)
        (canonPositions cfgScrew boxC5 (fun _ _ => 0) [⟨-1, 0, 0⟩])
      ≠ canonPositions cfgScrew boxC5 (fun _ _ => 0) [⟨-1, 0, 0⟩] := by
  rw [screw_pass1, screw_pass2]
  simp only [ne_eq, List.cons.injEq, V3.mk.injEq, and_true, true_and]
  norm_num

/-- Witness for the amended C6 on a non-screw geometry with a group that
needs one wrap. -/
theorem claim_C6_amended_witness :
    (cfgC5.bScrewPBC = false ∧
      (∀ d, d < cfgC5.npbcdim → 0 < vget (mrow boxC5 d) d) ∧
      vget (mrow boxC5 0) 1 = 0 ∧ vget (mrow boxC5 0) 2 = 0 ∧
      vget (mrow boxC5 1) 2 = 0) ∧
    (canonPositions cfgC5 boxC5 (fun _ _ => 0)
        (canonPositions cfgC5 boxC5 (fun _ _ => 0) [⟨5, 1, 1⟩, ⟨6, 2, 2⟩])
      = canonPositions cfgC5 boxC5 (fun _ _ => 0) [⟨5, 1, 1⟩, ⟨6, 2, 2⟩] ∧
     (assignGroup cfgC5 boxC5 (fun _ _ => 0)
        (canonPositions cfgC5 boxC5 (fun _ _ => 0) [⟨5, 1, 1⟩, ⟨6, 2, 2⟩])).2
      = (assignGroup cfgC5 boxC5 (fun _ _ => 0) [⟨5, 1, 1⟩, ⟨6, 2, 2⟩]).2) :=
  ⟨⟨rfl,
    fun d _ => by
      rcases d with _ | _ | _ | d <;> norm_num [boxC5, mrow, vget],
    by norm_num [boxC5, mrow, vget], by norm_num [boxC5, mrow, vget],
    by norm_num [boxC5, mrow, vget]⟩,
   claim_C6_amended cfgC5 boxC5 (fun _ _ => 0) [⟨5, 1, 1⟩, ⟨6, 2, 2⟩] rfl
     (fun d _ => by
       rcases d with _ | _ | _ | d <;> norm_num [boxC5, mrow, vget])
     (by norm_num [boxC5, mrow, vget]) (by norm_num [boxC5, mrow, vget])
     (by norm_num [boxC5, mrow, vget])⟩

/-! ### C7: the caller-visible position mutation -/

theorem segment_append_left {α : Type} (A rest : List α) (o k : ℕ)
    (h : o + k ≤ A.length) :
    segmentOf (A ++ rest) o k = segmentOf A o k := by
  unfold segmentOf
  rw [List.drop_append_of_le_length (by omega)]
  rw [List.take_append_of_le_length (by simp [List.length_drop]; omega)]

theorem segment_take {α : Type} (l : List α) (m o k : ℕ) (h : o + k ≤ m) :
    segmentOf (l.take m) o k = segmentOf l o k := by
  unfold segmentOf
  rw [List.drop_take, List.take_take]
  congr 1
  omega

theorem getAtomGroupDistribution_pos_inv (cfg : DDConfig) (box : Mat3)
    (tcm : ℕ → ℕ → ℚ) (c : ℕ → ℕ) (hmono : ∀ i, c i ≤ c (i + 1)) (pos : List V3) :
    ∀ n, c n ≤ pos.length →
      (getAtomGroupDistribution cfg box tcm c n pos).pos.length = pos.length ∧
      (getAtomGroupDistribution cfg box tcm c n pos).pos.drop (c n) = pos.drop (c n) ∧
      ∀ i, i < n →
        segmentOf (getAtomGroupDistribution cfg box tcm c n pos).pos
            (c i) (c (i + 1) - c i)
          = canonPositions cfg box tcm (segmentOf pos (c i) (c (i + 1) - c i)) := by
  have hmono' : Monotone c := monotone_nat_of_le_succ hmono
  intro n
  induction n with
  | zero =>
    intro _
    exact ⟨rfl, rfl, fun i hi => absurd hi (Nat.not_lt_zero i)⟩
  | succ n ih =>
    intro hlen1
    have hlen0 : c n ≤ pos.length := le_trans (hmono n) hlen1
    obtain ⟨hL, hD, hS⟩ := ih hlen0
    have hstep : getAtomGroupDistribution cfg box tcm c (n + 1) pos
        = distStep cfg box tcm c (getAtomGroupDistribution cfg box tcm c n pos) n := by
      unfold getAtomGroupDistribution
      rw [List.range_succ, List.foldl_append, List.foldl_cons, List.foldl_nil]
    set st := getAtomGroupDistribution cfg box tcm c n pos with hst
    have hmembers : (st.pos.drop (c n)).take (c (n + 1) - c n)
        = segmentOf pos (c n) (c (n + 1) - c n) := by
      rw [hD]
      rfl
    have hseglen : (segmentOf pos (c n) (c (n + 1) - c n)).length
        = c (n + 1) - c n := by
      unfold segmentOf
      rw [List.length_take, List.length_drop]
      omega
    have hcanlen : (canonPositions cfg box tcm
        (segmentOf pos (c n) (c (n + 1) - c n))).length = c (n + 1) - c n := by
      rw [canonPositions_length, hseglen]
    have hAlen : (st.pos.take (c n)).length = c n := by
      rw [List.length_take]
      omega
    have hnew : (distStep cfg box tcm c st n).pos
        = st.pos.take (c n)
          ++ canonPositions cfg box tcm (segmentOf pos (c n) (c (n + 1) - c n))
          ++ st.pos.drop (c (n + 1)) := by
      simp only [distStep]
      rw [hmembers]
      rfl
    have hCd : st.pos.drop (c (n + 1)) = pos.drop (c (n + 1)) := by
      have h1 : st.pos.drop (c (n + 1)) = (st.pos.drop (c n)).drop (c (n + 1) - c n) := by
        rw [List.drop_drop]
        congr 1
        have := hmono n
        omega
      rw [h1, hD, List.drop_drop]
      congr 1
      have := hmono n
      omega
    have hABlen : (st.pos.take (c n)
        ++ canonPositions cfg box tcm (segmentOf pos (c n) (c (n + 1) - c n))).length
        = c (n + 1) := by
      rw [List.length_append, hAlen, hcanlen]
      have := hmono n
      omega
    rw [hstep, hnew]
    refine ⟨?_, ?_, ?_⟩
    · rw [List.length_append, hABlen, List.length_drop, hL]
      omega
    · have hdl := List.drop_left
        (st.pos.take (c n)
          ++ canonPositions cfg box tcm (segmentOf pos (c n) (c (n + 1) - c n)))
        (st.pos.drop (c (n + 1)))
      rw [hABlen] at hdl
      rw [List.append_assoc] at hdl
      rw [List.append_assoc, hdl, hCd]
    · intro i hi
      rcases Nat.lt_succ_iff_lt_or_eq.mp hi with hilt | hieq
      · have hb : c i + (c (i + 1) - c i) ≤ c n := by
          have h1 : c i ≤ c (i + 1) := hmono i
          have h2 : c (i + 1) ≤ c n := hmono' (Nat.succ_le_of_lt hilt)
          omega
        rw [List.append_assoc]
        rw [segment_append_left _ _ _ _ (by rw [hAlen]; exact hb)]
        rw [segment_take _ _ _ _ hb]
        exact hS i hilt
      · subst hieq
        set B := canonPositions cfg box tcm (segmentOf pos (c i) (c (i + 1) - c i))
          with hB
        have hdl := List.drop_left (st.pos.take (c i)) (B ++ st.pos.drop (c (i + 1)))
        rw [hAlen] at hdl
        have htl := List.take_left B (st.pos.drop (c (i + 1)))
        rw [hcanlen] at htl
        rw [List.append_assoc]
        unfold segmentOf
        rw [hdl, htl]

/-- Concrete run of the full distribution fold for the C7 counterexample: one
group of two atoms at `x = -1` and `x = 3`; its mean lies inside the box, no
wrap fires, and the caller's array is returned with the member still at
`x = -1`. -/
theorem getAtomGroupDistribution_C7 :
    (getAtomGroupDistribution cfgC5 boxC5 (fun _ _ => 0) (fun i => 2 * i) 1
      [⟨-1, 1, 1⟩, ⟨3, 1, 1⟩]).pos = [⟨-1, 1, 1⟩, ⟨3, 1, 1⟩] := by
  have h1 : getAtomGroupDistribution cfgC5 boxC5 (fun _ _ => 0) (fun i => 2 * i) 1
      [⟨-1, 1, 1⟩, ⟨3, 1, 1⟩]
      = distStep cfgC5 boxC5 (fun _ _ => 0) (fun i => 2 * i)
        ⟨List.replicate (nnodes cfgC5) [], List.replicate (nnodes cfgC5) 0,
         [⟨-1, 1, 1⟩, ⟨3, 1, 1⟩]⟩ 0 := by
    unfold getAtomGroupDistribution
    rw [show List.range 1 = [0] from rfl, List.foldl_cons, List.foldl_nil]
  rw [h1]
  simp only [distStep]
  have hc : (assignGroup cfgC5 boxC5 (fun _ _ => 0)
      ((([⟨-1, 1, 1⟩, ⟨3, 1, 1⟩] : List V3).drop (2 * 0)).take (2 * 1 - 2 * 0))).1
      = [⟨-1, 1, 1⟩, ⟨3, 1, 1⟩] := canonPositions_C5
  rw [hc]
  rfl

/-- **C7, counterexample.**  The claim says that after
`getAtomGroupDistribution` returns, every member atom's position in the
caller's array has been canonicalized *into the primary cell*.  For the group
with members at `x = -1` and `x = 3` (representative at `x = 1`, inside the
box) no wrap fires and the caller's array still holds the member at
`x = -1`, outside `[0, boxLength)`. -/
theorem claim_C7_counterexample :
    ¬ (∀ p ∈ (getAtomGroupDistribution cfgC5 boxC5 (fun _ _ => 0) (fun i => 2 * i) 1
        [⟨-1, 1, 1⟩, ⟨3, 1, 1⟩]).pos,
        0 ≤ vget p 0 ∧ vget p 0 < vget (mrow boxC5 0) 0) := by
  rw [getAtomGroupDistribution_C7]
  intro hall
  have := (hall ⟨-1, 1, 1⟩ (by simp)).1
  norm_num [vget] at this

/-- **C7, amended.**  Assignment mutates the caller's position array in
place: after `getAtomGroupDistribution` returns, every group's slice of the
array passed in holds that group's *canonicalized* member positions — the
wrapping transform of 4.1 applied to the group (representative wrapped into
the primary cell, members shifted with it by the same box-vector multiples,
not each member individually placed inside the primary cell) — and
`distributeState` exposes exactly this mutated array as the caller's global
state (`state_global->x`), which the subsequent per-atom-vector transfers
then read: the mutation is visible to the caller, not confined to a local
copy. -/
theorem claim_C7_inplace_mutation (cfg : DDConfig) (box : Mat3)
    (tcm : ℕ → ℕ → ℚ) (cgindex : ℕ → ℕ) (nr : ℕ) (pos : List V3)
    (hmono : ∀ i, cgindex i ≤ cgindex (i + 1)) (hlen : cgindex nr ≤ pos.length) :
    (∀ icg, icg < nr →
      segmentOf (getAtomGroupDistribution cfg box tcm cgindex nr pos).pos
          (cgindex icg) (cgindex (icg + 1) - cgindex icg)
        = canonPositions cfg box tcm
            (segmentOf pos (cgindex icg) (cgindex (icg + 1) - cgindex icg))) ∧
    (∀ threshold masterRank (global : TState) (locals : List TState),
      (distributeState threshold cfg tcm cgindex nr masterRank global locals).1.x
        = (getAtomGroupDistribution cfg global.boxm tcm cgindex nr global.x).pos) :=
  ⟨(getAtomGroupDistribution_pos_inv cfg box tcm cgindex hmono pos nr hlen).2.2,
   fun _ _ _ _ => rfl⟩

/-- Witness for C7: the C5 geometry with two single-atom groups. -/
theorem claim_C7_inplace_mutation_witness :
    ((∀ i, (fun j => j) i ≤ (fun j => j) (i + 1)) ∧
      (fun j => j) 2 ≤ ([⟨5, 1, 1⟩, ⟨1, 1, 1⟩] : List V3).length) ∧
    ((∀ icg, icg < 2 →
      segmentOf (getAtomGroupDistribution cfgC5 boxC5 (fun _ _ => 0) (fun j => j) 2
          [⟨5, 1, 1⟩, ⟨1, 1, 1⟩]).pos
          ((fun j => j) icg) ((fun j => j) (icg + 1) - (fun j => j) icg)
        = canonPositions cfgC5 boxC5 (fun _ _ => 0)
            (segmentOf [⟨5, 1, 1⟩, ⟨1, 1, 1⟩] ((fun j => j) icg)
              ((fun j => j) (icg + 1) - (fun j => j) icg))) ∧
     (∀ threshold masterRank (global : TState) (locals : List TState),
      (distributeState threshold cfgC5 (fun _ _ => 0) (fun j => j) 2 masterRank
          global locals).1.x
        = (getAtomGroupDistribution cfgC5 global.boxm (fun _ _ => 0) (fun j => j) 2
            global.x).pos)) :=
  ⟨⟨fun i => Nat.le_succ i, by norm_num⟩,
   claim_C7_inplace_mutation cfgC5 boxC5 (fun _ _ => 0) (fun j => j) 2
     [⟨5, 1, 1⟩, ⟨1, 1, 1⟩] (fun i => Nat.le_succ i) (by norm_num)⟩

/-! ### C8: free-energy-history distribution -/

/-- Master-side history for the C8 counterexample (`bEquil = 1`, no lambdas). -/
def histA : DfHistory := ⟨1, 0, 0, [], [], [], [], [], [], [], [], [], [], [], []⟩

/-- A differing local history on another rank (`bEquil = 0`). -/
def histB : DfHistory := ⟨0, 0, 0, [], [], [], [], [], [], [], [], [], [], [], []⟩

/-- **C8, counterexample.**  The claim keys the no-op on the *global*
free-energy-history pointer, but the code checks the *local* pointer
(`dd_distribute_dfhist(dd, state_local->dfhist)`, null test on its argument).
With the global pointer absent but local histories present, the broadcast
still runs and overwrites rank 1's header with the master's local value, so
distribution is not a no-op on local state. -/
theorem claim_C8_counterexample :
    distributeDfhistPhase 0 none [some histA, some histB]
      ≠ [some histA, some histB] := by
  decide

/-- **C8, amended.**  Distribution of the free-energy history is keyed on the
*local* history pointer: a rank whose local pointer is absent is left
untouched, and if the master's local pointer is absent the whole collective
leaves every rank unchanged.  When histories are present, the three header
scalars (equilibration flag, lambda count, step-size parameter) are always
taken from the master — `nlambda` is broadcast before the size test, so the
test sees the master's count on every rank — and all size-dependent vectors
and lambda×lambda matrices are left unchanged unless the lambda count is
positive. -/
theorem claim_C8_amended (mr : ℕ) (locals : List (Option DfHistory))
    (hm hr : DfHistory) (r : ℕ) :
    (locals.getD r none = none →
      (dd_distribute_dfhist mr locals).getD r none = none) ∧
    (locals.getD mr none = none → dd_distribute_dfhist mr locals = locals) ∧
    ((recvDfhist hm hr).bEquil = hm.bEquil ∧
     (recvDfhist hm hr).nlambda = hm.nlambda ∧
     (recvDfhist hm hr).wl_delta = hm.wl_delta) ∧
    (hm.nlambda ≤ 0 → recvDfhist hm hr
      = { hr with
          bEquil := hm.bEquil
          nlambda := hm.nlambda
          wl_delta := hm.wl_delta }) := by
  refine ⟨?_, ?_, ?_, ?_⟩
  · intro hnone
    unfold dd_distribute_dfhist
    have hfn : recvOpt (locals.getD mr none) none = none := by
      cases locals.getD mr none <;> rfl
    have hmap := getD_map_fn (recvOpt (locals.getD mr none)) none locals r
    rw [hfn] at hmap
    rw [hmap, hnone, hfn]
  · intro hmr
    unfold dd_distribute_dfhist
    rw [hmr]
    have hid : ∀ h : Option DfHistory, recvOpt none h = h := by
      intro h
      cases h <;> rfl
    exact (List.map_congr_left fun a _ => hid a).trans (List.map_id _)
  · unfold recvDfhist
    split_ifs <;> exact ⟨rfl, rfl, rfl⟩
  · intro hle
    unfold recvDfhist
    rw [if_neg (by omega)]

/-- Witness for the amended C8: a one-rank collective with an absent local
history, plus the `nlambda = 0` frame fact on concrete histories. -/
theorem claim_C8_amended_witness :
    (([(none : Option DfHistory)].getD 0 none = none ∧ histA.nlambda ≤ 0) ∧
     ((dd_distribute_dfhist 0 [(none : Option DfHistory)]).getD 0 none = none ∧
      dd_distribute_dfhist 0 [(none : Option DfHistory)] = [none] ∧
      recvDfhist histA histB
        = { histB with
            bEquil := histA.bEquil
            nlambda := histA.nlambda
            wl_delta := histA.wl_delta })) :=
  ⟨⟨rfl, by decide⟩,
   ⟨(claim_C8_amended 0 [none] histA histB 0).1 rfl,
    (claim_C8_amended 0 [none] histA histB 0).2.1 rfl,
    (claim_C8_amended 0 [none] histA histB 0).2.2.2 (by decide)⟩⟩

/-! ### C9: the Nose-Hoover chain-length consistency check -/

/-- **C9.**  A mismatch between the global state's Nose-Hoover chain length
and the (master's) local state's chain length makes `dd_distribute_state`
abort at once with the assertion's diagnostic; with matching chain lengths
the distribution runs to completion (the mismatch is never silently
corrected). -/
theorem claim_C9_chain_mismatch_fatal (threshold masterRank : ℕ)
    (cgindex : ℕ → ℕ) (ma : AtomDistributionData) (natHome : ℕ → ℕ)
    (global : TState) (locals : List TState) :
    (global.nhchainlength ≠ (locals.getD masterRank default).nhchainlength →
      dd_distribute_state threshold masterRank cgindex ma natHome global locals
        = Except.error
            "The global and local Nose-Hoover chain lengths should match") ∧
    (global.nhchainlength = (locals.getD masterRank default).nhchainlength →
      ∃ ls, dd_distribute_state threshold masterRank cgindex ma natHome global locals
        = Except.ok ls) := by
  constructor
  · intro h
    unfold dd_distribute_state
    rw [if_pos h]
  · intro h
    unfold dd_distribute_state
    rw [if_neg (by simp [h])]
    exact ⟨_, rfl⟩

/-- Witness for C9: chain length 2 in the global state against 0 in the local
replica aborts; equal lengths succeed. -/
theorem claim_C9_chain_mismatch_fatal_witness :
    (({ (default : TState) with nhchainlength := 2 }.nhchainlength
        ≠ (([(default : TState)] : List TState).getD 0 default).nhchainlength) ∧
     (dd_distribute_state 4 0 id ⟨[]⟩ (fun _ => 0)
        { (default : TState) with nhchainlength := 2 } [(default : TState)]
        = Except.error
            "The global and local Nose-Hoover chain lengths should match")) ∧
    (((default : TState).nhchainlength
        = (([(default : TState)] : List TState).getD 0 default).nhchainlength) ∧
     (∃ ls, dd_distribute_state 4 0 id ⟨[]⟩ (fun _ => 0)
        (default : TState) [(default : TState)] = Except.ok ls)) :=
  ⟨⟨by decide,
    (claim_C9_chain_mismatch_fatal 4 0 id ⟨[]⟩ (fun _ => 0)
      { (default : TState) with nhchainlength := 2 } [(default : TState)]).1
      (by decide)⟩,
   ⟨rfl,
    (claim_C9_chain_mismatch_fatal 4 0 id ⟨[]⟩ (fun _ => 0)
      (default : TState) [(default : TState)]).2 rfl⟩⟩

/-! ### C10: the transfer phase treats the global vectors as read-only -/

/-- **C10.**  Both transfer strategies read the master's global vector `v`
into packing buffers and write only the local arrays `lv` (`v` is a
`const rvec *` in the source and is embedded as a pure input); consequently,
after a full `distributeState` round the caller's global per-atom fields are
exactly: `v` and `cg_p` unchanged, and `x` equal to the assignment phase's
canonicalized array — the transfer phase changes none of them. -/
theorem claim_C10_global_vectors_read_only (threshold : ℕ) (cfg : DDConfig)
    (tcm : ℕ → ℕ → ℚ) (cgindex : ℕ → ℕ) (nr : ℕ) (masterRank : ℕ)
    (global : TState) (locals : List TState) :
    (distributeState threshold cfg tcm cgindex nr masterRank global locals).1.v
      = global.v ∧
    (distributeState threshold cfg tcm cgindex nr masterRank global locals).1.cg_p
      = global.cg_p ∧
    (distributeState threshold cfg tcm cgindex nr masterRank global locals).1.x
      = (getAtomGroupDistribution cfg global.boxm tcm cgindex nr global.x).pos :=
  ⟨rfl, rfl, rfl⟩

end GmxDistribute
